/-
  Verification of the control-flow analysis core of the gta3sc decompiler.

  The definitions below are shallow embeddings of the C++ code:
  vectors become lists, indices (BlockId, ProcId, statement node
  pointers) become naturals, `std::map` becomes an association list,
  and the `shared_ptr` statement-node heap becomes an arena (a list of
  nodes addressed by position).  Recursions whose termination the C++
  code obtains from a monotonically growing visited set are embedded
  with an explicit fuel argument; the top-level entry points pass a
  fuel that is provably sufficient, so the embedded functions compute
  exactly what the source computes.
-/
import Mathlib

set_option maxRecDepth 4000

/-- Modify the element at position `i` of a list, leaving the list
unchanged when the index is out of range (the C++ source indexes
`std::vector` directly; out-of-range access is undefined there and the
theorems below only ever use in-range indices). -/
def listModify (l : List α) (i : Nat) (f : α → α) : List α :=
  match l, i with
  | [], _ => []
  | a :: as, 0 => f a :: as
  | a :: as, n+1 => a :: listModify as n f

/-! ## Segment references (`SegType`, `SegReference`)

Embedded from `struct SegReference` and `enum class SegType`. -/

/-- The segment kinds, in the declaration order of `enum class SegType`
(so the `uint8_t` value of each enumerator is its position). -/
inductive SegType where
  | Main : SegType
  | Mission : SegType
  | Streamed : SegType
  | ExitNode : SegType
deriving DecidableEq, Repr

/-- Numeric value of a `SegType` enumerator, as produced by
`static_cast<uint8_t>`. -/
def SegType.toUInt8 : SegType → Nat
  | .Main => 0
  | .Mission => 1
  | .Streamed => 2
  | .ExitNode => 3

/-- Embedding of `struct SegReference` (the padding byte `reserved` is
never read or compared and is omitted). `segindex` is a `uint16_t` and
`data_index` a `uint32_t` in the source; the comparisons below only use
their order, which agrees with the order on `Nat`. -/
structure SegReference where
  segtype : SegType
  segindex : Nat
  data_index : Nat
deriving DecidableEq, Repr

/-- Embedding of `SegReference::operator==`. -/
def SegReference.eq (a b : SegReference) : Bool :=
  a.data_index = b.data_index && a.segindex = b.segindex && a.segtype = b.segtype

/-- Embedding of `SegReference::operator<`. -/
def SegReference.lt (a b : SegReference) : Bool :=
  if a.segtype ≠ b.segtype then a.segtype.toUInt8 < b.segtype.toUInt8
  else if a.segindex ≠ b.segindex then a.segindex < b.segindex
  else a.data_index < b.data_index

/-- The ordering the specification describes: lexicographic on the
triple (segment kind, segment index, data index), with segment kinds
ordered Main < Mission < Streamed < ExitNode. -/
def SegReference.specLex (a b : SegReference) : Prop :=
  a.segtype.toUInt8 < b.segtype.toUInt8 ∨
    (a.segtype = b.segtype ∧ a.segindex < b.segindex) ∨
    (a.segtype = b.segtype ∧ a.segindex = b.segindex ∧ a.data_index < b.data_index)

/-! ## Blocks, procedures, and the block list

Embedded from `struct Block`, `struct ProcEntry` and `struct BlockList`.
The dominator bitsets and the sorted-range bookkeeping are not involved
in the claims below and are omitted from the embedding. -/

/-- Embedding of `ProcEntry::XRefInfo`. -/
structure XRefInfo where
  block_id : Nat
  proc_id : Nat
deriving DecidableEq, Repr

/-- Embedding of `struct ProcEntry` (the `ProcType` bitmask is kept as
a plain natural; no claim inspects it). -/
structure ProcEntry where
  type : Nat
  block_id : Nat
  exit_block : Option Nat
  calls_into : List XRefInfo
  called_from : List XRefInfo
  spawns_script : List XRefInfo
  spawned_from : List XRefInfo
deriving DecidableEq, Repr

instance : Inhabited ProcEntry := ⟨⟨0, 0, none, [], [], [], []⟩⟩

/-- Embedding of `struct Block`. -/
structure Block where
  block_begin : SegReference
  length : Nat
  pred : List Nat
  succ : List Nat
deriving DecidableEq, Repr

instance : Inhabited Block := ⟨⟨⟨SegType.Main, 0, 0⟩, 0, [], []⟩⟩

/-- Embedding of `struct BlockList` (the parts the claims use). -/
structure BlockList where
  blocks : List Block
  proc_entries : List ProcEntry
deriving Repr

/-- Embedding of `BlockList::Loop`. -/
structure Loop where
  head : Nat
  tail : Nat
deriving DecidableEq, Repr

/-- Embedding of `BlockList::link_blocks`: append `link_to` to the
successor list of `link_from`, then append `link_from` to the
predecessor list of `link_to`. -/
def BlockList.link_blocks (bl : BlockList) (link_from link_to : Nat) : BlockList :=
  let b1 := listModify bl.blocks link_from (fun b => { b with succ := b.succ ++ [link_to] })
  { bl with blocks := listModify b1 link_to (fun b => { b with pred := b.pred ++ [link_from] }) }

/-- Embedding of `BlockList::link_call` with the two `ProcEntry&`
arguments replaced by their indices (`proc_id`): append
`{caller_block, called}` to the caller's `calls_into`, then append
`{caller_block, caller}` to the callee's `called_from`. -/
def BlockList.link_call (bl : BlockList) (caller_block caller called : Nat) : BlockList :=
  let p1 := listModify bl.proc_entries caller
    (fun p => { p with calls_into := p.calls_into ++ [⟨caller_block, called⟩] })
  let p2 := listModify p1 called
    (fun p => { p with called_from := p.called_from ++ [⟨caller_block, caller⟩] })
  { bl with proc_entries := p2 }

/-- Embedding of `BlockList::link_script_spawn` with the two
`ProcEntry&` arguments replaced by their indices: append
`{spawner_block, spawned}` to the spawner's `spawns_script`, then
append `{spawner_block, spawner}` to the spawned procedure's
`spawned_from`. -/
def BlockList.link_script_spawn (bl : BlockList) (spawner_block spawner spawned : Nat) :
    BlockList :=
  let p1 := listModify bl.proc_entries spawner
    (fun p => { p with spawns_script := p.spawns_script ++ [⟨spawner_block, spawned⟩] })
  let p2 := listModify p1 spawned
    (fun p => { p with spawned_from := p.spawned_from ++ [⟨spawner_block, spawner⟩] })
  { bl with proc_entries := p2 }

/-- Successor list of block `i` (`blocks[i].succ`). -/
def BlockList.succOf (bl : BlockList) (i : Nat) : List Nat :=
  (bl.blocks.getD i default).succ

/-- Predecessor list of block `i` (`blocks[i].pred`). -/
def BlockList.predOf (bl : BlockList) (i : Nat) : List Nat :=
  (bl.blocks.getD i default).pred

/-- Edge symmetry with multiplicities: `a` occurs in `pred(b)` exactly
as often as `b` occurs in `succ(a)`. -/
def BlockList.EdgeSym (bl : BlockList) : Prop :=
  ∀ a b : Nat, (bl.predOf b).count a = (bl.succOf a).count b

/-- Procedure entry `i` of the block list (`proc_entries[i]`). -/
def BlockList.procOf (bl : BlockList) (i : Nat) : ProcEntry :=
  bl.proc_entries.getD i default

/-- A cross-reference linking operation: `link_call` or
`link_script_spawn`, identified by its block and procedure indices. -/
inductive XOp where
  | call (caller_block caller called : Nat) : XOp
  | spawn (spawner_block spawner spawned : Nat) : XOp

/-- Apply one linking operation to the block list. -/
def BlockList.applyXOp (bl : BlockList) : XOp → BlockList
  | .call f p q => bl.link_call f p q
  | .spawn f p q => bl.link_script_spawn f p q

/-- Procedure indices of a linking operation are within the procedure
table. -/
def XOp.InRange (op : XOp) (bl : BlockList) : Prop :=
  match op with
  | .call _ p q => p < bl.proc_entries.length ∧ q < bl.proc_entries.length
  | .spawn _ p q => p < bl.proc_entries.length ∧ q < bl.proc_entries.length

/-- Symmetry of the call and the spawn cross-reference lists. -/
def BlockList.CallSpawnSym (bl : BlockList) : Prop :=
  ∀ f p q : Nat,
    ((⟨f, q⟩ : XRefInfo) ∈ (bl.procOf p).calls_into ↔
      (⟨f, p⟩ : XRefInfo) ∈ (bl.procOf q).called_from) ∧
    ((⟨f, q⟩ : XRefInfo) ∈ (bl.procOf p).spawns_script ↔
      (⟨f, p⟩ : XRefInfo) ∈ (bl.procOf q).spawned_from)

/-! ## Argument variants and `get_immstr`

Embedded from `disassembler.hpp`. `DecompiledString` is an alias for
`CompiledString`, whose definition lives outside the analysed sources;
`get_immstr` only iterates its `storage` member with `std::find` over
`char`s, so `storage` is embedded as a list of characters. -/

/-- Embedding of `struct DecompiledVar`. -/
structure DecompiledVar where
  global : Bool
  offset : Nat
deriving DecidableEq, Repr

/-- Embedding of `struct DecompiledVarArray`. -/
structure DecompiledVarArray where
  base : DecompiledVar
  index : DecompiledVar
deriving DecidableEq, Repr

/-- Embedding of `DecompiledString` (= `CompiledString`): the parts
`get_immstr` reads, namely the character storage. -/
structure DecompiledString where
  storage : List Char
deriving DecidableEq, Repr

/-- Embedding of `ArgVariant2 = variant<EOAL, int8_t, int16_t, int32_t,
float, DecompiledVar, DecompiledVarArray, DecompiledString>`.  The
numeric payloads are never inspected by `get_immstr`; integers are kept
as `Int` and the float as its raw bit pattern. -/
inductive ArgVariant2 where
  | EOAL : ArgVariant2
  | int8 (v : Int) : ArgVariant2
  | int16 (v : Int) : ArgVariant2
  | int32 (v : Int) : ArgVariant2
  | float (bits : Nat) : ArgVariant2
  | var (v : DecompiledVar) : ArgVariant2
  | varArray (a : DecompiledVarArray) : ArgVariant2
  | string (s : DecompiledString) : ArgVariant2
deriving DecidableEq, Repr

/-- Position of the first NUL character, or the length of the list if
there is none: the embedding of
`std::find(s.storage.begin(), s.storage.end(), '\0')`. -/
def findNul : List Char → Nat
  | [] => 0
  | c :: cs => if c = Char.ofNat 0 then 0 else 1 + findNul cs

/-- Embedding of the `get_immstr` overload set dispatched through
`visit_one`: every alternative returns `nullopt` except
`DecompiledString`, which returns the characters before the first NUL
(`std::string(s.storage.begin(), nul_it)`). -/
def get_immstr : ArgVariant2 → Option (List Char)
  | .string s => some (s.storage.take (findNul s.storage))
  | _ => none

/-! ## Generic depth-first traversal

Embedding of the three `depth_first_internal_` templates.  All three
share the same recursion: mark the node visited, call the visitor,
stop if it returned false, otherwise iterate the adjacency list,
recursing into unvisited entries and propagating a stop.  The visitor
is a state transformer `σ → Nat → σ × Bool` (the C++ visitors are
closures mutating captured state).  `univ` is the set of valid node
indices (the size of the `visited` bitset / the key space of the
visited map).  The recursion terminates in C++ because every
recursive call happens on a node freshly marked visited; here the same
argument bounds the nesting depth by `univ.card`, which the explicit
`fuel` argument makes structural.  Fuel exhaustion reports `ok =
false` and is unreachable whenever `(univ \ vis).card < fuel`, as the
lemmas below prove. -/

/-- Result of a traversal: visited set, visitor state, and `true` when
the traversal ran to completion without the visitor stopping it. -/
structure DfsRes (σ : Type) where
  vis : Finset Nat
  st : σ
  ok : Bool

/-- The successor loop of `depth_first_internal_`: skip visited
entries (and indices outside the bitset), descend into unvisited ones,
propagate a stop. -/
def dfsSeq (univ : Finset Nat) (visit : Nat → Finset Nat → σ → DfsRes σ) :
    List Nat → Finset Nat → σ → DfsRes σ
  | [], vis, s => ⟨vis, s, true⟩
  | x :: xs, vis, s =>
    if x ∈ vis then dfsSeq univ visit xs vis s
    else if x ∈ univ then
      let r := visit x vis s
      if r.ok then dfsSeq univ visit xs r.vis r.st else r
    else dfsSeq univ visit xs vis s

/-- The node body of `depth_first_internal_`: mark the node, call the
visitor, and on continue walk the adjacency list. -/
def dfsVisit (univ : Finset Nat) (adj : Nat → List Nat) (f : σ → Nat → σ × Bool) :
    Nat → Nat → Finset Nat → σ → DfsRes σ
  | 0, _, vis, s => ⟨vis, s, false⟩
  | fuel+1, x, vis, s =>
    let fc := f s x
    if fc.2 then dfsSeq univ (dfsVisit univ adj f fuel) (adj x) (insert x vis) fc.1
    else ⟨insert x vis, fc.1, false⟩

/-- Top-level `depth_first`: fresh visited set, enough fuel for every
node of `univ`. -/
def depth_first (univ : Finset Nat) (adj : Nat → List Nat) (f : σ → Nat → σ × Bool)
    (start : Nat) (s0 : σ) : DfsRes σ :=
  dfsVisit univ adj f (univ.card + 1) start ∅ s0

/-- State after the visitor has been fed the nodes of `Δ` in order. -/
def chainSt (f : σ → Nat → σ × Bool) (s : σ) (Δ : List Nat) : σ :=
  Δ.foldl (fun s a => (f s a).1) s

/-- Every visitor call along `Δ` returned continue. -/
def ChainCont (f : σ → Nat → σ × Bool) : σ → List Nat → Prop
  | _, [] => True
  | s, a :: Δ => (f s a).2 = true ∧ ChainCont f (f s a).1 Δ

/-- The last visitor call along `Δ` returned stop and every earlier
one returned continue (so `Δ` is nonempty and nothing follows the
stopping node). -/
def ChainStop (f : σ → Nat → σ × Bool) : σ → List Nat → Prop
  | _, [] => False
  | s, a :: Δ => ((f s a).2 = false ∧ Δ = []) ∨ ((f s a).2 = true ∧ ChainStop f (f s a).1 Δ)

/-- Common description of one traversal step's effect: the visited
nodes `Δ` (in visiting order) are fresh, inside `univ`, pairwise
distinct; the visited set grows by exactly `Δ`; the final state is the
visitor chained over `Δ`; and when the traversal was not stopped every
call continued and every `univ`-successor of a visited node ended up
visited. -/
structure DfsOut (univ : Finset Nat) (adj : Nat → List Nat) (f : σ → Nat → σ × Bool)
    (vis : Finset Nat) (s : σ) (r : DfsRes σ) (Δ : List Nat) : Prop where
  hvis : r.vis = vis ∪ Δ.toFinset
  hst : r.st = chainSt f s Δ
  hnd : Δ.Nodup
  hnew : ∀ a ∈ Δ, a ∉ vis
  huniv : ∀ a ∈ Δ, a ∈ univ
  hcont : r.ok = true → ChainCont f s Δ
  hclos : r.ok = true → ∀ a ∈ Δ, ∀ c ∈ adj a, c ∈ univ → c ∈ r.vis

/-- Specification of a node-visiting function as used by `dfsSeq`,
with adequacy bound `n` on the fuel. -/
def VisitOutProp (univ : Finset Nat) (adj : Nat → List Nat) (f : σ → Nat → σ × Bool)
    (visit : Nat → Finset Nat → σ → DfsRes σ) (n : Nat) : Prop :=
  ∀ x vis s, x ∈ univ → x ∉ vis →
    ∃ Δ, DfsOut univ adj f vis s (visit x vis s) Δ ∧
      ((visit x vis s).ok = true → x ∈ (visit x vis s).vis) ∧
      ((univ \ vis).card < n → (visit x vis s).ok = false → ChainStop f s Δ)

/-! ## Statement nodes

Embedding of `StatementNode` and its subclasses.  The `shared_ptr`
heap becomes an arena: a list of nodes addressed by position, a fresh
`make_shared` is an append, and pointer equality is index equality.
The subclass fields are flattened into one record (`block_id`,
`block_from`, `block_until`, `goto_break`, `goto_continue` belong to
`StatementBlock`; `loop_head`, `loop_tail` to `StatementWhile`); the
`type` tag says which constructor built the node, exactly as the C++
`StatementNode::Type` does. -/

/-- Embedding of `StatementNode::Type`. -/
inductive StmtType where
  | Block : StmtType
  | While : StmtType
  | If : StmtType
  | IfElse : StmtType
  | Break : StmtType
deriving DecidableEq, Repr

/-- One statement node: tag, weak `pred` links, owning `succ` links,
and the subclass payload fields. -/
structure StmtNode where
  type : StmtType
  pred : List Nat
  succ : List Nat
  block_id : Nat
  block_from : Nat
  block_until : Nat
  goto_break : Bool
  goto_continue : Bool
  loop_head : Nat
  loop_tail : Nat
deriving DecidableEq, Repr

instance : Inhabited StmtNode := ⟨⟨StmtType.Break, [], [], 0, 0, 0, false, false, 0, 0⟩⟩

/-- Node `i` of the arena. -/
def stmtGetD (ar : List StmtNode) (i : Nat) : StmtNode := ar.getD i default

/-- The node built by `StatementBlock(block_id)`. -/
def mkStmtBlock (b : Nat) : StmtNode :=
  ⟨StmtType.Block, [], [], b, 0, 0, false, false, 0, 0⟩

/-- The node built by `StatementBreak()`. -/
def mkStmtBreak : StmtNode := ⟨StmtType.Break, [], [], 0, 0, 0, false, false, 0, 0⟩

/-- The node built by `StatementWhile()`. -/
def mkStmtWhile : StmtNode := ⟨StmtType.While, [], [], 0, 0, 0, false, false, 0, 0⟩

/-- Embedding of `StatementNode::add_successor`: append to our `succ`,
then append us to the successor's `pred`. -/
def addSuccessor (ar : List StmtNode) (self succ_node : Nat) : List StmtNode :=
  let ar1 := listModify ar self (fun nd => { nd with succ := nd.succ ++ [succ_node] })
  listModify ar1 succ_node (fun nd => { nd with pred := nd.pred ++ [self] })

/-- Loop body of `StatementNode::replace_successor`: walk the
(snapshotted) successor list; at every entry equal to `old_node`,
overwrite that `succ` slot with `new_node`, append `self` to
`new_node`'s `pred`, and erase the first occurrence of `self` from
`old_node`'s `pred`. -/
def replaceSuccessorAux (self old_node new_node : Nat) :
    List Nat → Nat → List StmtNode → List StmtNode
  | [], _, ar => ar
  | e :: rest, i, ar =>
    if e = old_node then
      let ar1 := listModify ar self (fun nd => { nd with succ := nd.succ.set i new_node })
      let ar2 := listModify ar1 new_node (fun nd => { nd with pred := nd.pred ++ [self] })
      let ar3 := listModify ar2 old_node (fun nd => { nd with pred := nd.pred.erase self })
      replaceSuccessorAux self old_node new_node rest (i+1) ar3
    else
      replaceSuccessorAux self old_node new_node rest (i+1) ar

/-- Embedding of `StatementNode::replace_successor`. -/
def replace_successor (ar : List StmtNode) (self old_node new_node : Nat) : List StmtNode :=
  replaceSuccessorAux self old_node new_node (stmtGetD ar self).succ 0 ar

/-- Loop body of `StatementNode::unlink_preds`: walk the (snapshotted)
predecessor list; keep entries equal to the exception, and for every
other predecessor `p` replace every occurrence of `self` in `p.succ`
by `new_succ` (`std::replace`), append `p` to `new_succ`'s `pred`, and
drop the entry from `self`'s `pred` (the erase in the loop; the kept
entries are written back at the end). -/
def unlinkPredsAux (self new_succ : Nat) (exceptn : Option Nat) :
    List Nat → List Nat → List StmtNode → List StmtNode
  | [], kept, ar => listModify ar self (fun nd => { nd with pred := kept })
  | p :: rest, kept, ar =>
    if some p = exceptn then unlinkPredsAux self new_succ exceptn rest (kept ++ [p]) ar
    else
      let ar1 := listModify ar p
        (fun nd => { nd with succ := nd.succ.map (fun e => if e = self then new_succ else e) })
      let ar2 := listModify ar1 new_succ (fun nd => { nd with pred := nd.pred ++ [p] })
      unlinkPredsAux self new_succ exceptn rest kept ar2

/-- Embedding of `StatementNode::unlink_preds`. -/
def unlink_preds (ar : List StmtNode) (self new_succ : Nat) (exceptn : Option Nat) :
    List StmtNode :=
  unlinkPredsAux self new_succ exceptn (stmtGetD ar self).pred [] ar

/-- Embedding of `StatementWhile::setup` on the arena.  `self` is the
while node.  The `Expects(succ.size() == 2)` assertion is modelled as
the `Option`: `none` is the aborted run. -/
def StatementWhile.setup (ar : List StmtNode) (self head tail : Nat) :
    Option (List StmtNode) :=
  let ar0 := listModify ar self (fun nd => { nd with loop_head := head, loop_tail := tail })
  if (stmtGetD ar0 head).succ.length = 2 then
    let break_target := (stmtGetD ar0 head).succ.getD 0 0
    let ar1 := unlink_preds ar0 head self (some tail)
    let break_id := ar1.length
    let ar2 := ar1 ++ [mkStmtBreak]
    let ar3 := replace_successor ar2 head break_target break_id
    let ar4 := addSuccessor ar3 self break_target
    let ar5 := listModify ar4 tail (fun nd => { nd with block_until := nd.block_until + 1 })
    some ar5
  else none

/-- Embedding of `StatementWhile::break_node`, with the
`Expects(succ.size() == 1)` assertion as the `Option`. -/
def StatementWhile.break_node (ar : List StmtNode) (self : Nat) : Option Nat :=
  if (stmtGetD ar self).succ.length = 1 then some ((stmtGetD ar self).succ.getD 0 0)
  else none

/-! ## Building the statement graph (`to_statements`) -/

/-- The build state: the node arena and the `block2node` map as an
association list in insertion order. -/
structure BuildSt where
  arena : List StmtNode
  b2n : List (Nat × Nat)

/-- Lookup in the `block2node` map (keys are unique, so the first
match is the entry). -/
def lookupB2n : List (Nat × Nat) → Nat → Option Nat
  | [], _ => none
  | (k, v) :: rest, b => if k = b then some v else lookupB2n rest b

/-- The successor loop of `to_statements_internal`: for every CFG
successor, link to its node if the map has one, otherwise recurse
first (`rec` is the recursive call at the remaining fuel). -/
def goSuccs (rec : Nat → BuildSt → Nat × BuildSt) (nid : Nat) :
    List Nat → BuildSt → BuildSt
  | [], st => st
  | s :: rest, st =>
    match lookupB2n st.b2n s with
    | some m => goSuccs rec nid rest ⟨addSuccessor st.arena nid m, st.b2n⟩
    | none =>
      let r := rec s st
      goSuccs rec nid rest ⟨addSuccessor r.2.arena nid r.1, r.2.b2n⟩

/-- Embedding of `to_statements_internal`: create the `StatementBlock`
for the block, register it in `block2node` before any recursion, then
process the successors.  Fuel exhaustion returns the state unchanged;
the top-level fuel below makes it unreachable. -/
def to_statements_internal (bl : BlockList) : Nat → Nat → BuildSt → Nat × BuildSt
  | 0, _, st => (st.arena.length, st)
  | fuel+1, b, st =>
    let nid := st.arena.length
    let st1 : BuildSt := ⟨st.arena ++ [mkStmtBlock b], st.b2n ++ [(b, nid)]⟩
    (nid, goSuccs (to_statements_internal bl fuel) nid (bl.succOf b) st1)

/-- Embedding of `to_statements`: fresh map, enough fuel for every
block. -/
def to_statements (bl : BlockList) (entry_point : Nat) : Nat × BuildSt :=
  to_statements_internal bl (bl.blocks.length + 1) entry_point ⟨[], []⟩

/-! ## Graph instances for the traversals -/

/-- Valid node indices of the block CFG (the size of the `visited`
bitset in `depth_first`). -/
def blockUniv (bl : BlockList) : Finset Nat := Finset.range bl.blocks.length

/-- Adjacency of the block CFG in the direction of the `forward`
flag. -/
def blockAdj (bl : BlockList) (forward : Bool) : Nat → List Nat :=
  fun i => if forward then bl.succOf i else bl.predOf i

/-- Valid procedure indices. -/
def procUniv (bl : BlockList) : Finset Nat := Finset.range bl.proc_entries.length

/-- Adjacency of the call graph (`calls_into` / `called_from` by
direction; the traversal recurses into `xref.proc_id`). -/
def callAdj (bl : BlockList) (forward : Bool) : Nat → List Nat :=
  fun i => ((if forward then (bl.procOf i).calls_into else (bl.procOf i).called_from).map
    (fun x => x.proc_id))

/-- Adjacency of the spawn graph (`spawns_script` / `spawned_from`). -/
def spawnAdj (bl : BlockList) (forward : Bool) : Nat → List Nat :=
  fun i => ((if forward then (bl.procOf i).spawns_script else (bl.procOf i).spawned_from).map
    (fun x => x.proc_id))

/-- Valid statement node indices. -/
def stmtUniv (ar : List StmtNode) : Finset Nat := Finset.range ar.length

/-- Adjacency of the statement graph (forward only: the C++ iterator
asserts `Expects(forward == true)` and walks `succ`). -/
def stmtAdj (ar : List StmtNode) : Nat → List Nat := fun i => (stmtGetD ar i).succ

/-- Block-CFG `depth_first`. -/
def depth_first_blocks (bl : BlockList) (start : Nat) (forward : Bool)
    (f : σ → Nat → σ × Bool) (s0 : σ) : DfsRes σ :=
  depth_first (blockUniv bl) (blockAdj bl forward) f start s0

/-- Call-graph `depth_first` (the `tag_call_graph_t` overload). -/
def depth_first_call (bl : BlockList) (start : Nat) (forward : Bool)
    (f : σ → Nat → σ × Bool) (s0 : σ) : DfsRes σ :=
  depth_first (procUniv bl) (callAdj bl forward) f start s0

/-- Spawn-graph `depth_first` (the `tag_spawn_graph_t` overload). -/
def depth_first_spawn (bl : BlockList) (start : Nat) (forward : Bool)
    (f : σ → Nat → σ × Bool) (s0 : σ) : DfsRes σ :=
  depth_first (procUniv bl) (spawnAdj bl forward) f start s0

/-- Statement-graph `depth_first`: `none` when called backward (the
C++ `Expects(forward == true)` aborts). -/
def depth_first_stmts (ar : List StmtNode) (start : Nat) (forward : Bool)
    (f : σ → Nat → σ × Bool) (s0 : σ) : Option (DfsRes σ) :=
  if forward then some (depth_first (stmtUniv ar) (stmtAdj ar) f start s0) else none

/-- A pure continue/stop visitor instrumented to record the sequence
of nodes it is invoked on. -/
def traceVisitor (g : Nat → Bool) : List Nat → Nat → List Nat × Bool :=
  fun tr a => (tr ++ [a], g a)

/-! ## The while-structuring pass (`structure_dowhile`) -/

/-- The search visitor of `structure_dowhile`: remember block
statements whose `block_id` is the loop head or tail, stop once both
are found. -/
def searchVisitorF (ar : List StmtNode) (hid tid : Nat) :
    Option Nat × Option Nat → Nat → (Option Nat × Option Nat) × Bool :=
  fun s n =>
    let nd := stmtGetD ar n
    if nd.type = StmtType.Block then
      let oh := if nd.block_id = hid then some n else s.1
      let ot := if nd.block_id = tid then some n else s.2
      ((oh, ot), !(oh.isSome && ot.isSome))
    else (s, true)

/-- The depth-first search for the head and tail block statements. -/
def dowhileSearch (ar : List StmtNode) (entry hid tid : Nat) : Option Nat × Option Nat :=
  (depth_first (stmtUniv ar) (stmtAdj ar) (searchVisitorF ar hid tid) entry
    ((none, none) : Option Nat × Option Nat)).st

/-- One iteration of the `structure_dowhile` loop: search for head and
tail, skip the loop if either is missing, otherwise create the while
node, run `setup`, and update the entry if the head was the entry. -/
def structure_dowhile_step (st : Nat × List StmtNode) (loop : Loop) :
    Option (Nat × List StmtNode) :=
  match dowhileSearch st.2 st.1 loop.head loop.tail with
  | (some h, some t) =>
    let w := st.2.length
    let ar1 := st.2 ++ [mkStmtWhile]
    match StatementWhile.setup ar1 w h t with
    | some ar2 => some (if st.1 = h then w else st.1, ar2)
    | none => none
  | _ => some st

/-- Embedding of `structure_dowhile`: fold the loop list (already
sorted inner-first by the caller) over the statement graph.  `none` is
an aborted `Expects` inside `setup`. -/
def structure_dowhile (entry : Nat) (ar : List StmtNode) :
    List Loop → Option (Nat × List StmtNode)
  | [] => some (entry, ar)
  | loop :: rest =>
    match structure_dowhile_step (entry, ar) loop with
    | some st2 => structure_dowhile st2.1 st2.2 rest
    | none => none

/-- What one traversal guarantees for a pure visitor `g`: the state is
the exact sequence `Δ` of visitor invocations, each node is visited at
most once (`Δ.Nodup`, and the visited set is exactly `Δ`), a completed
run got continue everywhere, and a stopped run has the stopping node
as its last invocation with nothing after it. -/
def TraceOut (g : Nat → Bool) (r : DfsRes (List Nat)) : Prop :=
  ∃ Δ, r.st = Δ ∧ r.vis = Δ.toFinset ∧ Δ.Nodup ∧
    (r.ok = true → ∀ a ∈ Δ, g a = true) ∧
    (r.ok = false → ∃ Δ2 last, Δ = Δ2 ++ [last] ∧ g last = false ∧ (∀ a ∈ Δ2, g a = true))

/-- Concrete arena for the C9 witness: node 0 a fresh while node, node
1 a block statement with two successors, node 2 a block statement. -/
def c9Arena : List StmtNode :=
  [mkStmtWhile,
   ⟨StmtType.Block, [], [2, 0], 5, 0, 0, false, false, 0, 0⟩,
   ⟨StmtType.Block, [1], [], 6, 0, 0, false, false, 0, 0⟩]

/-- Concrete arena for the C2 witness: a head block (node 0, two
successors: exit node 1 and body node 2), the loop tail (node 2,
back-edge to the head), and a fresh while node (node 3). -/
def c2Arena : List StmtNode :=
  [⟨StmtType.Block, [2], [1, 2], 0, 0, 0, false, false, 0, 0⟩,
   ⟨StmtType.Block, [0], [], 2, 0, 0, false, false, 0, 0⟩,
   ⟨StmtType.Block, [0], [0], 1, 0, 0, false, false, 0, 0⟩,
   mkStmtWhile]

/-- Reachability along an adjacency function. -/
inductive Reach (adj : Nat → List Nat) : Nat → Nat → Prop where
  | refl (a : Nat) : Reach adj a a
  | tail {a b c : Nat} : Reach adj a b → c ∈ adj b → Reach adj a c

/-- Invariant of the `to_statements` build state: the `block2node` map
enumerates the arena (one pair per node, in creation order), its keys
are distinct block ids below the block count, and every node is a
`StatementBlock`. -/
structure BuildInv (n : Nat) (st : BuildSt) : Prop where
  enum : st.b2n = (List.range st.arena.length).map
    (fun j => ((stmtGetD st.arena j).block_id, j))
  keysnd : (st.b2n.map Prod.fst).Nodup
  keyslt : ∀ p ∈ st.b2n, p.1 < n
  allblock : ∀ j, j < st.arena.length → (stmtGetD st.arena j).type = StmtType.Block

/-- The keys already registered, as a finite set. -/
def keysF (st : BuildSt) : Finset Nat := (st.b2n.map Prod.fst).toFinset

/-- A finished statement node mirrors its block: its `succ` list is the
block's successor list mapped through the final `block2node` map, and
every successor is registered. -/
def SuccFormula (bl : BlockList) (st : BuildSt) (j : Nat) : Prop :=
  (stmtGetD st.arena j).succ =
    (bl.succOf ((stmtGetD st.arena j).block_id)).map
      (fun s => (lookupB2n st.b2n s).getD 0) ∧
  ∀ s ∈ bl.succOf ((stmtGetD st.arena j).block_id), (lookupB2n st.b2n s).isSome = true

/-- What one `to_statements_internal` call guarantees (all of it under
the fuel-adequacy bound): the returned node id is the next free slot;
the invariant is preserved; the map only grows and old entries keep
their bindings; the block is registered at the returned id; nodes
created before the call keep their `succ`, `block_id` and
`block_until`; every newly registered block has all its CFG successors
registered; every node at or after the call's arena frontier satisfies
the finished-node formula; every new map entry is reachable from the
call's block; and at least one node is created. -/
def NodeSpec (bl : BlockList) (n : Nat) (rec : Nat → BuildSt → Nat × BuildSt)
    (bound : Nat) : Prop :=
  ∀ b st, b < n → lookupB2n st.b2n b = none → BuildInv n st →
    (Finset.range n \ keysF st).card < bound →
    (rec b st).1 = st.arena.length ∧
    BuildInv n (rec b st).2 ∧
    (∃ rest, (rec b st).2.b2n = st.b2n ++ rest) ∧
    (∀ k v, lookupB2n st.b2n k = some v → lookupB2n (rec b st).2.b2n k = some v) ∧
    lookupB2n (rec b st).2.b2n b = some st.arena.length ∧
    (∀ j, j < st.arena.length →
      (stmtGetD (rec b st).2.arena j).succ = (stmtGetD st.arena j).succ ∧
      (stmtGetD (rec b st).2.arena j).block_id = (stmtGetD st.arena j).block_id ∧
      (stmtGetD (rec b st).2.arena j).block_until = (stmtGetD st.arena j).block_until) ∧
    (∀ k v, lookupB2n (rec b st).2.b2n k = some v → lookupB2n st.b2n k = none →
      ∀ s ∈ bl.succOf k, (lookupB2n (rec b st).2.b2n s).isSome = true) ∧
    (∀ j, st.arena.length ≤ j → j < (rec b st).2.arena.length →
      SuccFormula bl (rec b st).2 j) ∧
    (∀ p ∈ (rec b st).2.b2n, p ∉ st.b2n → Reach bl.succOf b p.1) ∧
    st.arena.length < (rec b st).2.arena.length

def c8Bl : BlockList :=
  { blocks :=
      [ ⟨⟨SegType.Main, 0, 0⟩, 4, [1], [1]⟩,
        ⟨⟨SegType.Main, 0, 0⟩, 4, [0], [0]⟩ ],
    proc_entries := [] }

def c1Bl : BlockList :=
  { blocks :=
      [ ⟨⟨SegType.Main, 0, 0⟩, 4, [1], [1]⟩,
        ⟨⟨SegType.Main, 0, 0⟩, 4, [0], [0]⟩ ],
    proc_entries := [] }

def c3Arena : List StmtNode :=
  [ ⟨StmtType.Block, [], [1], 0, 0, 0, false, false, 0, 0⟩,
    ⟨StmtType.Block, [0], [0], 1, 0, 0, false, false, 0, 0⟩ ]

theorem listModify_length (l : List α) (i : Nat) (f : α → α) :
    (listModify l i f).length = l.length := by
  induction l generalizing i with
  | nil => rfl
  | cons a as ih =>
    cases i with
    | zero => rfl
    | succ n => simp [listModify, ih]

theorem listModify_getD_same (l : List α) (i : Nat) (f : α → α) (d : α)
    (h : i < l.length) : (listModify l i f).getD i d = f (l.getD i d) := by
  induction l generalizing i with
  | nil => simp at h
  | cons a as ih =>
    cases i with
    | zero => simp [listModify]
    | succ n =>
      simp only [listModify, List.getD_cons_succ]
      exact ih n (by simpa using h)

theorem listModify_getD_other (l : List α) (i j : Nat) (f : α → α) (d : α)
    (h : j ≠ i) : (listModify l i f).getD j d = l.getD j d := by
  induction l generalizing i j with
  | nil => simp [listModify]
  | cons a as ih =>
    cases i with
    | zero =>
      cases j with
      | zero => exact absurd rfl h
      | succ m => simp [listModify]
    | succ n =>
      cases j with
      | zero => simp [listModify]
      | succ m =>
        simp only [listModify, List.getD_cons_succ]
        exact ih n m (fun hc => h (by simp [hc]))

theorem listModify_out_of_range (l : List α) (i : Nat) (f : α → α)
    (h : l.length ≤ i) : listModify l i f = l := by
  induction l generalizing i with
  | nil => rfl
  | cons a as ih =>
    cases i with
    | zero => simp at h
    | succ n => simp only [listModify]; rw [ih n (by simpa using h)]

theorem SegType.toUInt8_inj : ∀ {a b : SegType}, a.toUInt8 = b.toUInt8 → a = b := by
  intro a b h
  cases a <;> cases b <;> first | rfl | simp [SegType.toUInt8] at h

theorem SegReference.specLex_iff_nat (a b : SegReference) :
    SegReference.specLex a b ↔
      (a.segtype.toUInt8 < b.segtype.toUInt8 ∨
        (a.segtype.toUInt8 = b.segtype.toUInt8 ∧ a.segindex < b.segindex) ∨
        (a.segtype.toUInt8 = b.segtype.toUInt8 ∧ a.segindex = b.segindex ∧
          a.data_index < b.data_index)) := by
  unfold SegReference.specLex
  constructor
  · rintro (h | ⟨he, h⟩ | ⟨he, he2, h⟩)
    · exact Or.inl h
    · exact Or.inr (Or.inl ⟨by rw [he], h⟩)
    · exact Or.inr (Or.inr ⟨by rw [he], he2, h⟩)
  · rintro (h | ⟨he, h⟩ | ⟨he, he2, h⟩)
    · exact Or.inl h
    · exact Or.inr (Or.inl ⟨SegType.toUInt8_inj he, h⟩)
    · exact Or.inr (Or.inr ⟨SegType.toUInt8_inj he, he2, h⟩)

theorem SegReference.lt_iff_specLex (a b : SegReference) :
    SegReference.lt a b = true ↔ SegReference.specLex a b := by
  rw [SegReference.specLex_iff_nat]
  unfold SegReference.lt
  by_cases h1 : a.segtype = b.segtype
  · by_cases h2 : a.segindex = b.segindex
    · simp [h1, h2]
    · simp [h1, h2]
  · have h1' : a.segtype.toUInt8 ≠ b.segtype.toUInt8 :=
      fun hc => h1 (SegType.toUInt8_inj hc)
    simp only [h1, ne_eq, not_false_eq_true, if_true, decide_eq_true_eq]
    constructor
    · intro h; exact Or.inl h
    · rintro (h | ⟨he, _⟩ | ⟨he, _⟩)
      · exact h
      · exact absurd he h1'
      · exact absurd he h1'

theorem SegReference.eq_iff (a b : SegReference) :
    SegReference.eq a b = true ↔
      (a.segtype = b.segtype ∧ a.segindex = b.segindex ∧ a.data_index = b.data_index) := by
  unfold SegReference.eq
  constructor
  · intro h
    simp only [Bool.and_eq_true, decide_eq_true_eq] at h
    exact ⟨h.2, h.1.2, h.1.1⟩
  · rintro ⟨h1, h2, h3⟩
    simp [h1, h2, h3]

theorem SegReference.specLex_irrefl (a : SegReference) : ¬ SegReference.specLex a a := by
  rw [SegReference.specLex_iff_nat]
  omega

theorem SegReference.specLex_trans {a b c : SegReference}
    (hab : SegReference.specLex a b) (hbc : SegReference.specLex b c) :
    SegReference.specLex a c := by
  rw [SegReference.specLex_iff_nat] at *
  omega

theorem SegReference.specLex_total (a b : SegReference)
    (h1 : ¬ SegReference.specLex a b) (h2 : ¬ SegReference.specLex b a) :
    a.segtype = b.segtype ∧ a.segindex = b.segindex ∧ a.data_index = b.data_index := by
  rw [SegReference.specLex_iff_nat] at h1 h2
  have ht : a.segtype.toUInt8 = b.segtype.toUInt8 := by omega
  exact ⟨SegType.toUInt8_inj ht, by omega, by omega⟩

/-- C7. `SegReference::operator<` is exactly the lexicographic order on
(segment kind, segment index, data index) with Main < Mission <
Streamed < ExitNode, `operator==` is componentwise equality, and
`operator<` is a strict total order compatible with that equality
(irreflexive, transitive, and any two references that compare
less-than in neither direction are componentwise equal). -/
theorem claim_C7 (a b : SegReference) :
    (SegReference.lt a b = true ↔ SegReference.specLex a b) ∧
    (SegReference.eq a b = true ↔
      (a.segtype = b.segtype ∧ a.segindex = b.segindex ∧ a.data_index = b.data_index)) ∧
    SegReference.lt a a = false ∧
    (∀ c, SegReference.lt a b = true → SegReference.lt b c = true →
      SegReference.lt a c = true) ∧
    (SegReference.lt a b = false → SegReference.lt b a = false →
      SegReference.eq a b = true) := by
  refine ⟨SegReference.lt_iff_specLex a b, SegReference.eq_iff a b, ?_, ?_, ?_⟩
  · by_contra h
    rw [Bool.not_eq_false, SegReference.lt_iff_specLex] at h
    exact SegReference.specLex_irrefl a h
  · intro c hab hbc
    rw [SegReference.lt_iff_specLex] at *
    exact SegReference.specLex_trans hab hbc
  · intro h1 h2
    rw [SegReference.eq_iff]
    refine SegReference.specLex_total a b ?_ ?_
    · rw [← SegReference.lt_iff_specLex]; simp [h1]
    · rw [← SegReference.lt_iff_specLex]; simp [h2]

/-- C7 witness: the theorem instantiated at two concrete references. -/
theorem claim_C7_witness :
    (SegReference.lt ⟨SegType.Main, 0, 5⟩ ⟨SegType.Mission, 0, 0⟩ = true ↔
      SegReference.specLex ⟨SegType.Main, 0, 5⟩ ⟨SegType.Mission, 0, 0⟩) ∧
    (SegReference.eq ⟨SegType.Main, 0, 5⟩ ⟨SegType.Mission, 0, 0⟩ = true ↔
      (SegType.Main = SegType.Mission ∧ (0 : Nat) = 0 ∧ (5 : Nat) = 0)) ∧
    SegReference.lt ⟨SegType.Main, 0, 5⟩ ⟨SegType.Main, 0, 5⟩ = false ∧
    (∀ c, SegReference.lt ⟨SegType.Main, 0, 5⟩ ⟨SegType.Mission, 0, 0⟩ = true →
      SegReference.lt ⟨SegType.Mission, 0, 0⟩ c = true →
      SegReference.lt ⟨SegType.Main, 0, 5⟩ c = true) ∧
    (SegReference.lt ⟨SegType.Main, 0, 5⟩ ⟨SegType.Mission, 0, 0⟩ = false →
      SegReference.lt ⟨SegType.Mission, 0, 0⟩ ⟨SegType.Main, 0, 5⟩ = false →
      SegReference.eq ⟨SegType.Main, 0, 5⟩ ⟨SegType.Mission, 0, 0⟩ = true) :=
  claim_C7 ⟨SegType.Main, 0, 5⟩ ⟨SegType.Mission, 0, 0⟩

theorem BlockList.link_blocks_succOf (bl : BlockList) (f t c : Nat)
    (hf : f < bl.blocks.length) (ht : t < bl.blocks.length) :
    (bl.link_blocks f t).succOf c =
      if c = f then bl.succOf c ++ [t] else bl.succOf c := by
  unfold BlockList.link_blocks BlockList.succOf
  by_cases hct : c = t
  · subst hct
    rw [listModify_getD_same _ _ _ _ (by rw [listModify_length]; exact ht)]
    by_cases hcf : c = f
    · subst hcf; rw [listModify_getD_same _ _ _ _ hf]; simp
    · rw [listModify_getD_other _ _ _ _ _ hcf]; simp [hcf]
  · rw [listModify_getD_other _ _ _ _ _ hct]
    by_cases hcf : c = f
    · subst hcf; rw [listModify_getD_same _ _ _ _ hf]; simp
    · rw [listModify_getD_other _ _ _ _ _ hcf]; simp [hcf]

theorem BlockList.link_blocks_predOf (bl : BlockList) (f t c : Nat)
    (hf : f < bl.blocks.length) (ht : t < bl.blocks.length) :
    (bl.link_blocks f t).predOf c =
      if c = t then bl.predOf c ++ [f] else bl.predOf c := by
  unfold BlockList.link_blocks BlockList.predOf
  by_cases hct : c = t
  · subst hct
    rw [listModify_getD_same _ _ _ _ (by rw [listModify_length]; exact ht)]
    by_cases hcf : c = f
    · subst hcf; rw [listModify_getD_same _ _ _ _ hf]; simp
    · rw [listModify_getD_other _ _ _ _ _ hcf]; simp
  · rw [listModify_getD_other _ _ _ _ _ hct]
    by_cases hcf : c = f
    · subst hcf; rw [listModify_getD_same _ _ _ _ hf]; simp [hct]
    · rw [listModify_getD_other _ _ _ _ _ hcf]; simp [hct]

theorem BlockList.link_blocks_length (bl : BlockList) (f t : Nat) :
    (bl.link_blocks f t).blocks.length = bl.blocks.length := by
  unfold BlockList.link_blocks
  simp [listModify_length]

theorem count_single_nat (a b : Nat) :
    List.count a [b] = if a = b then 1 else 0 := by
  by_cases h : a = b <;> simp [h]

theorem BlockList.link_blocks_edgeSym (bl : BlockList) (f t : Nat)
    (hf : f < bl.blocks.length) (ht : t < bl.blocks.length)
    (hsym : bl.EdgeSym) : (bl.link_blocks f t).EdgeSym := by
  intro a b
  rw [BlockList.link_blocks_succOf bl f t a hf ht, BlockList.link_blocks_predOf bl f t b hf ht]
  have hs := hsym a b
  by_cases hbt : b = t <;> by_cases haf : a = f
  · subst hbt; subst haf
    simp [List.count_append, count_single_nat]
    omega
  · subst hbt
    simp [List.count_append, count_single_nat, haf, hs]
  · subst haf
    simp [List.count_append, count_single_nat, hbt, hs]
  · simp [hbt, haf, hs]

/-- C5. Each `link_blocks(A, B)` call appends exactly one entry to
`A.succ` and one to `B.pred` and changes no other block's lists, and
after any sequence of in-range `link_blocks` calls starting from a
block list with symmetric edges, `A` occurs in `B.pred` with the same
multiplicity as `B` occurs in `A.succ`. -/
theorem claim_C5 :
    (∀ (bl : BlockList) (ops : List (Nat × Nat)),
      bl.EdgeSym →
      (∀ p ∈ ops, p.1 < bl.blocks.length ∧ p.2 < bl.blocks.length) →
      (ops.foldl (fun s p => s.link_blocks p.1 p.2) bl).EdgeSym) ∧
    (∀ (bl : BlockList) (f t : Nat), f < bl.blocks.length → t < bl.blocks.length →
      (bl.link_blocks f t).succOf f = bl.succOf f ++ [t] ∧
      (bl.link_blocks f t).predOf t = bl.predOf t ++ [f] ∧
      (∀ c, c ≠ f → (bl.link_blocks f t).succOf c = bl.succOf c) ∧
      (∀ c, c ≠ t → (bl.link_blocks f t).predOf c = bl.predOf c)) := by
  constructor
  · intro bl ops
    induction ops generalizing bl with
    | nil => intro hsym _; exact hsym
    | cons op rest ih =>
      intro hsym hrange
      simp only [List.foldl_cons]
      refine ih (bl.link_blocks op.1 op.2)
        (BlockList.link_blocks_edgeSym bl op.1 op.2 (hrange op (by simp)).1
          (hrange op (by simp)).2 hsym) ?_
      intro p hp
      rw [BlockList.link_blocks_length]
      exact hrange p (by simp [hp])
  · intro bl f t hf ht
    refine ⟨?_, ?_, ?_, ?_⟩
    · rw [BlockList.link_blocks_succOf bl f t f hf ht]; simp
    · rw [BlockList.link_blocks_predOf bl f t t hf ht]; simp
    · intro c hc; rw [BlockList.link_blocks_succOf bl f t c hf ht]; simp [hc]
    · intro c hc; rw [BlockList.link_blocks_predOf bl f t c hf ht]; simp [hc]

/-- C5 witness: the theorem applied to a concrete two-block list and
the single call `link_blocks 0 1`. -/
theorem claim_C5_witness :
    (([((0 : Nat), (1 : Nat))].foldl (fun s p => s.link_blocks p.1 p.2)
      (⟨[default, default], []⟩ : BlockList)).EdgeSym ∧
    ((⟨[default, default], []⟩ : BlockList).link_blocks 0 1).succOf 0 =
      (⟨[default, default], []⟩ : BlockList).succOf 0 ++ [1] ∧
    ((⟨[default, default], []⟩ : BlockList).link_blocks 0 1).predOf 1 =
      (⟨[default, default], []⟩ : BlockList).predOf 1 ++ [0] ∧
    (∀ c, c ≠ 0 → ((⟨[default, default], []⟩ : BlockList).link_blocks 0 1).succOf c =
      (⟨[default, default], []⟩ : BlockList).succOf c) ∧
    (∀ c, c ≠ 1 → ((⟨[default, default], []⟩ : BlockList).link_blocks 0 1).predOf c =
      (⟨[default, default], []⟩ : BlockList).predOf c)) := by
  have hsym : (⟨[default, default], []⟩ : BlockList).EdgeSym := by
    intro a b
    match a, b with
    | 0, 0 => rfl
    | 0, 1 => rfl
    | 0, n+2 => rfl
    | 1, 0 => rfl
    | 1, 1 => rfl
    | 1, n+2 => rfl
    | m+2, 0 => rfl
    | m+2, 1 => rfl
    | m+2, n+2 => rfl
  exact ⟨claim_C5.1 ⟨[default, default], []⟩ [(0, 1)] hsym (by decide),
    claim_C5.2 ⟨[default, default], []⟩ 0 1 (by decide) (by decide)⟩

theorem BlockList.link_call_procOf (bl : BlockList) (f p q c : Nat)
    (hp : p < bl.proc_entries.length) (hq : q < bl.proc_entries.length) :
    ((bl.link_call f p q).procOf c).calls_into =
      (if c = p then (bl.procOf c).calls_into ++ [⟨f, q⟩] else (bl.procOf c).calls_into) ∧
    ((bl.link_call f p q).procOf c).called_from =
      (if c = q then (bl.procOf c).called_from ++ [⟨f, p⟩] else (bl.procOf c).called_from) ∧
    ((bl.link_call f p q).procOf c).spawns_script = (bl.procOf c).spawns_script ∧
    ((bl.link_call f p q).procOf c).spawned_from = (bl.procOf c).spawned_from := by
  unfold BlockList.link_call BlockList.procOf
  by_cases hcq : c = q
  · subst hcq
    rw [listModify_getD_same _ _ _ _ (by rw [listModify_length]; exact hq)]
    by_cases hcp : c = p
    · subst hcp; rw [listModify_getD_same _ _ _ _ hp]; simp
    · rw [listModify_getD_other _ _ _ _ _ hcp]; simp [hcp]
  · rw [listModify_getD_other _ _ _ _ _ hcq]
    by_cases hcp : c = p
    · subst hcp; rw [listModify_getD_same _ _ _ _ hp]; simp [hcq]
    · rw [listModify_getD_other _ _ _ _ _ hcp]; simp [hcp, hcq]

theorem BlockList.link_script_spawn_procOf (bl : BlockList) (f p q c : Nat)
    (hp : p < bl.proc_entries.length) (hq : q < bl.proc_entries.length) :
    ((bl.link_script_spawn f p q).procOf c).spawns_script =
      (if c = p then (bl.procOf c).spawns_script ++ [⟨f, q⟩] else (bl.procOf c).spawns_script) ∧
    ((bl.link_script_spawn f p q).procOf c).spawned_from =
      (if c = q then (bl.procOf c).spawned_from ++ [⟨f, p⟩] else (bl.procOf c).spawned_from) ∧
    ((bl.link_script_spawn f p q).procOf c).calls_into = (bl.procOf c).calls_into ∧
    ((bl.link_script_spawn f p q).procOf c).called_from = (bl.procOf c).called_from := by
  unfold BlockList.link_script_spawn BlockList.procOf
  by_cases hcq : c = q
  · subst hcq
    rw [listModify_getD_same _ _ _ _ (by rw [listModify_length]; exact hq)]
    by_cases hcp : c = p
    · subst hcp; rw [listModify_getD_same _ _ _ _ hp]; simp
    · rw [listModify_getD_other _ _ _ _ _ hcp]; simp [hcp]
  · rw [listModify_getD_other _ _ _ _ _ hcq]
    by_cases hcp : c = p
    · subst hcp; rw [listModify_getD_same _ _ _ _ hp]; simp [hcq]
    · rw [listModify_getD_other _ _ _ _ _ hcp]; simp [hcp, hcq]

theorem mem_append_single_xref (x y : XRefInfo) (l : List XRefInfo) :
    x ∈ l ++ [y] ↔ (x ∈ l ∨ x = y) := by
  simp [List.mem_append]

theorem xref_sym_step (A A' B B' : List XRefInfo) (f f0 p q p0 q0 : Nat)
    (hA : A' = if p = p0 then A ++ [⟨f0, q0⟩] else A)
    (hB : B' = if q = q0 then B ++ [⟨f0, p0⟩] else B)
    (hold : (⟨f, q⟩ : XRefInfo) ∈ A ↔ (⟨f, p⟩ : XRefInfo) ∈ B) :
    ((⟨f, q⟩ : XRefInfo) ∈ A' ↔ (⟨f, p⟩ : XRefInfo) ∈ B') := by
  subst hA; subst hB
  by_cases hpp : p = p0 <;> by_cases hqq : q = q0
  · subst hpp; subst hqq
    rw [if_pos rfl, if_pos rfl, mem_append_single_xref, mem_append_single_xref]
    refine or_congr hold ?_
    simp [XRefInfo.mk.injEq]
  · subst hpp
    rw [if_pos rfl, if_neg hqq, mem_append_single_xref]
    constructor
    · rintro (h | h)
      · exact hold.mp h
      · exact absurd (congrArg XRefInfo.proc_id h) hqq
    · intro h; exact Or.inl (hold.mpr h)
  · subst hqq
    rw [if_neg hpp, if_pos rfl, mem_append_single_xref]
    constructor
    · intro h; exact Or.inl (hold.mp h)
    · rintro (h | h)
      · exact hold.mpr h
      · exact absurd (congrArg XRefInfo.proc_id h) hpp
  · rw [if_neg hpp, if_neg hqq]; exact hold

theorem BlockList.applyXOp_callSpawnSym (bl : BlockList) (op : XOp)
    (hr : op.InRange bl) (hsym : bl.CallSpawnSym) :
    (bl.applyXOp op).CallSpawnSym := by
  cases op with
  | call f0 p0 q0 =>
    obtain ⟨hp0, hq0⟩ := hr
    intro f p q
    obtain ⟨hc1, hc2, hc3, hc4⟩ := BlockList.link_call_procOf bl f0 p0 q0 p hp0 hq0
    obtain ⟨hd1, hd2, hd3, hd4⟩ := BlockList.link_call_procOf bl f0 p0 q0 q hp0 hq0
    refine ⟨?_, ?_⟩
    · exact xref_sym_step _ _ _ _ f f0 p q p0 q0 hc1 hd2 (hsym f p q).1
    · show _ ∈ ((bl.link_call f0 p0 q0).procOf p).spawns_script ↔
        _ ∈ ((bl.link_call f0 p0 q0).procOf q).spawned_from
      rw [hc3, hd4]
      exact (hsym f p q).2
  | spawn f0 p0 q0 =>
    obtain ⟨hp0, hq0⟩ := hr
    intro f p q
    obtain ⟨hc1, hc2, hc3, hc4⟩ := BlockList.link_script_spawn_procOf bl f0 p0 q0 p hp0 hq0
    obtain ⟨hd1, hd2, hd3, hd4⟩ := BlockList.link_script_spawn_procOf bl f0 p0 q0 q hp0 hq0
    refine ⟨?_, ?_⟩
    · show _ ∈ ((bl.link_script_spawn f0 p0 q0).procOf p).calls_into ↔
        _ ∈ ((bl.link_script_spawn f0 p0 q0).procOf q).called_from
      rw [hc3, hd4]
      exact (hsym f p q).1
    · exact xref_sym_step _ _ _ _ f f0 p q p0 q0 hc1 hd2 (hsym f p q).2

theorem BlockList.applyXOp_procs_length (bl : BlockList) (op : XOp) :
    (bl.applyXOp op).proc_entries.length = bl.proc_entries.length := by
  cases op <;> simp [BlockList.applyXOp, BlockList.link_call, BlockList.link_script_spawn,
    listModify_length]

theorem XOp.inRange_of_length_eq (op : XOp) (bl bl' : BlockList)
    (h : bl'.proc_entries.length = bl.proc_entries.length)
    (hr : op.InRange bl) : op.InRange bl' := by
  cases op <;> simpa [XOp.InRange, h] using hr

/-- C6. After any sequence of in-range `link_call` and
`link_script_spawn` operations starting from a symmetric state,
`{F,Q} ∈ P.calls_into` iff `{F,P} ∈ Q.called_from` and
`{F,Q} ∈ P.spawns_script` iff `{F,P} ∈ Q.spawned_from`; moreover a
`link_call` changes no spawn list and a `link_script_spawn` changes no
call list. -/
theorem claim_C6 :
    (∀ (bl : BlockList) (ops : List XOp),
      bl.CallSpawnSym →
      (∀ op ∈ ops, op.InRange bl) →
      (ops.foldl BlockList.applyXOp bl).CallSpawnSym) ∧
    (∀ (bl : BlockList) (f p q : Nat),
      p < bl.proc_entries.length → q < bl.proc_entries.length →
      (∀ c, ((bl.link_call f p q).procOf c).spawns_script = (bl.procOf c).spawns_script ∧
        ((bl.link_call f p q).procOf c).spawned_from = (bl.procOf c).spawned_from) ∧
      (∀ c, ((bl.link_script_spawn f p q).procOf c).calls_into = (bl.procOf c).calls_into ∧
        ((bl.link_script_spawn f p q).procOf c).called_from = (bl.procOf c).called_from)) := by
  constructor
  · intro bl ops
    induction ops generalizing bl with
    | nil => intro hsym _; exact hsym
    | cons op rest ih =>
      intro hsym hrange
      simp only [List.foldl_cons]
      refine ih (bl.applyXOp op)
        (BlockList.applyXOp_callSpawnSym bl op (hrange op (by simp)) hsym) ?_
      intro o ho
      exact XOp.inRange_of_length_eq o bl _ (BlockList.applyXOp_procs_length bl op)
        (hrange o (by simp [ho]))
  · intro bl f p q hp hq
    constructor
    · intro c
      obtain ⟨_, _, h3, h4⟩ := BlockList.link_call_procOf bl f p q c hp hq
      exact ⟨h3, h4⟩
    · intro c
      obtain ⟨_, _, h3, h4⟩ := BlockList.link_script_spawn_procOf bl f p q c hp hq
      exact ⟨h3, h4⟩

/-- C6 witness: the theorem applied to a concrete two-procedure list
with one call link and one spawn link. -/
theorem claim_C6_witness :
    (([XOp.call 7 0 1, XOp.spawn 8 1 0].foldl BlockList.applyXOp
      (⟨[], [default, default]⟩ : BlockList)).CallSpawnSym ∧
    ((∀ c, (((⟨[], [default, default]⟩ : BlockList).link_call 7 0 1).procOf c).spawns_script =
        ((⟨[], [default, default]⟩ : BlockList).procOf c).spawns_script ∧
      (((⟨[], [default, default]⟩ : BlockList).link_call 7 0 1).procOf c).spawned_from =
        ((⟨[], [default, default]⟩ : BlockList).procOf c).spawned_from) ∧
    (∀ c, (((⟨[], [default, default]⟩ : BlockList).link_script_spawn 7 0 1).procOf c).calls_into =
        ((⟨[], [default, default]⟩ : BlockList).procOf c).calls_into ∧
      (((⟨[], [default, default]⟩ : BlockList).link_script_spawn 7 0 1).procOf c).called_from =
        ((⟨[], [default, default]⟩ : BlockList).procOf c).called_from))) := by
  have hdef : ∀ i, (⟨[], [default, default]⟩ : BlockList).procOf i = default := by
    intro i
    match i with
    | 0 => rfl
    | 1 => rfl
    | n+2 => rfl
  have hsym : (⟨[], [default, default]⟩ : BlockList).CallSpawnSym := by
    intro f p q
    rw [hdef p, hdef q]
    constructor <;> simp [default]
  exact ⟨claim_C6.1 ⟨[], [default, default]⟩ [XOp.call 7 0 1, XOp.spawn 8 1 0] hsym
      (by intro op hop
          simp only [List.mem_cons, List.not_mem_nil, or_false, List.mem_singleton] at hop
          rcases hop with h | h <;> subst h <;> exact ⟨by decide, by decide⟩),
    claim_C6.2 ⟨[], [default, default]⟩ 7 0 1 (by decide) (by decide)⟩

theorem findNul_le_length (l : List Char) : findNul l ≤ l.length := by
  induction l with
  | nil => simp [findNul]
  | cons c cs ih =>
    by_cases h : c = Char.ofNat 0
    · simp only [findNul, if_pos h]
      omega
    · simp only [findNul, if_neg h, List.length_cons]
      omega

theorem nul_not_mem_take_findNul (l : List Char) :
    Char.ofNat 0 ∉ l.take (findNul l) := by
  induction l with
  | nil => simp [findNul]
  | cons c cs ih =>
    by_cases h : c = Char.ofNat 0
    · simp [findNul, h]
    · have h1 : (1 : Nat) + findNul cs = findNul cs + 1 := Nat.add_comm 1 _
      simp only [findNul, if_neg h, h1, List.take_succ_cons, List.mem_cons]
      rintro (hc | hc)
      · exact h hc.symm
      · exact ih hc

theorem drop_findNul_shape (l : List Char) :
    l.drop (findNul l) = [] ∨ ∃ rest, l.drop (findNul l) = Char.ofNat 0 :: rest := by
  induction l with
  | nil => left; simp
  | cons c cs ih =>
    by_cases h : c = Char.ofNat 0
    · right; exact ⟨cs, by simp [findNul, h]⟩
    · have h1 : (1 : Nat) + findNul cs = findNul cs + 1 := Nat.add_comm 1 _
      simp only [findNul, if_neg h, h1, List.drop_succ_cons]
      exact ih

theorem findNul_of_not_mem (l : List Char) (h : Char.ofNat 0 ∉ l) :
    findNul l = l.length := by
  induction l with
  | nil => rfl
  | cons c cs ih =>
    simp only [List.mem_cons, not_or] at h
    have hc : ¬ c = Char.ofNat 0 := fun hc => h.1 hc.symm
    simp only [findNul, if_neg hc, List.length_cons]
    rw [ih h.2]
    omega

/-- C10. `get_immstr` returns a string exactly for the
`DecompiledString` alternative, and then returns precisely the
characters of the storage strictly before the first NUL (all of the
storage when it has no NUL); every other alternative yields nothing. -/
theorem claim_C10 (a : ArgVariant2) :
    ((get_immstr a).isSome ↔ ∃ s, a = ArgVariant2.string s) ∧
    (∀ s, a = ArgVariant2.string s →
      ∃ l, get_immstr a = some l ∧
        Char.ofNat 0 ∉ l ∧
        (∃ rest, s.storage = l ++ rest ∧
          (rest = [] ∨ ∃ rest2, rest = Char.ofNat 0 :: rest2)) ∧
        (Char.ofNat 0 ∉ s.storage → l = s.storage)) := by
  constructor
  · cases a <;> simp [get_immstr]
  · intro s ha
    subst ha
    refine ⟨s.storage.take (findNul s.storage), rfl, nul_not_mem_take_findNul _, ?_, ?_⟩
    · exact ⟨s.storage.drop (findNul s.storage),
        (List.take_append_drop _ _).symm, drop_findNul_shape _⟩
    · intro hnm
      rw [findNul_of_not_mem _ hnm]
      exact List.take_length _

/-- C10 witness: the theorem applied to a concrete string argument. -/
theorem claim_C10_witness :
    ((get_immstr (ArgVariant2.string ⟨['h', 'i', Char.ofNat 0, 'x']⟩)).isSome ↔
      ∃ s, ArgVariant2.string ⟨['h', 'i', Char.ofNat 0, 'x']⟩ = ArgVariant2.string s) ∧
    (∀ s, ArgVariant2.string ⟨['h', 'i', Char.ofNat 0, 'x']⟩ = ArgVariant2.string s →
      ∃ l, get_immstr (ArgVariant2.string ⟨['h', 'i', Char.ofNat 0, 'x']⟩) = some l ∧
        Char.ofNat 0 ∉ l ∧
        (∃ rest, s.storage = l ++ rest ∧
          (rest = [] ∨ ∃ rest2, rest = Char.ofNat 0 :: rest2)) ∧
        (Char.ofNat 0 ∉ s.storage → l = s.storage)) :=
  claim_C10 (ArgVariant2.string ⟨['h', 'i', Char.ofNat 0, 'x']⟩)

theorem chainSt_nil (f : σ → Nat → σ × Bool) (s : σ) : chainSt f s [] = s := rfl

theorem chainSt_cons (f : σ → Nat → σ × Bool) (s : σ) (a : Nat) (Δ : List Nat) :
    chainSt f s (a :: Δ) = chainSt f (f s a).1 Δ := rfl

theorem chainSt_append (f : σ → Nat → σ × Bool) (s : σ) (Δ₁ Δ₂ : List Nat) :
    chainSt f s (Δ₁ ++ Δ₂) = chainSt f (chainSt f s Δ₁) Δ₂ := by
  unfold chainSt
  exact List.foldl_append _ _ _ _

theorem chainCont_append (f : σ → Nat → σ × Bool) (s : σ) (Δ₁ Δ₂ : List Nat)
    (h1 : ChainCont f s Δ₁) (h2 : ChainCont f (chainSt f s Δ₁) Δ₂) :
    ChainCont f s (Δ₁ ++ Δ₂) := by
  induction Δ₁ generalizing s with
  | nil => exact h2
  | cons a Δ ih =>
    obtain ⟨ha, hc⟩ := h1
    exact ⟨ha, ih _ hc (by rwa [chainSt_cons] at h2)⟩

theorem chainStop_append (f : σ → Nat → σ × Bool) (s : σ) (Δ₁ Δ₂ : List Nat)
    (h1 : ChainCont f s Δ₁) (h2 : ChainStop f (chainSt f s Δ₁) Δ₂) :
    ChainStop f s (Δ₁ ++ Δ₂) := by
  induction Δ₁ generalizing s with
  | nil => exact h2
  | cons a Δ ih =>
    obtain ⟨ha, hc⟩ := h1
    exact Or.inr ⟨ha, ih _ hc (by rwa [chainSt_cons] at h2)⟩

theorem dfsSeq_out (univ : Finset Nat) (adj : Nat → List Nat) (f : σ → Nat → σ × Bool)
    (visit : Nat → Finset Nat → σ → DfsRes σ) (n : Nat)
    (hv : VisitOutProp univ adj f visit n) :
    ∀ (l : List Nat) (vis : Finset Nat) (s : σ),
      ∃ Δ, DfsOut univ adj f vis s (dfsSeq univ visit l vis s) Δ ∧
        ((dfsSeq univ visit l vis s).ok = true →
          ∀ y ∈ l, y ∈ univ → y ∈ (dfsSeq univ visit l vis s).vis) ∧
        ((univ \ vis).card < n → (dfsSeq univ visit l vis s).ok = false →
          ChainStop f s Δ) := by
  intro l
  induction l with
  | nil =>
    intro vis s
    refine ⟨[], ⟨by simp [dfsSeq], rfl, by simp, by simp, by simp, fun _ => trivial, ?_⟩,
      ?_, ?_⟩
    · intro _ a ha; simp at ha
    · intro _ y hy; simp at hy
    · intro _ hok; simp [dfsSeq] at hok
  | cons x xs ih =>
    intro vis s
    by_cases hxv : x ∈ vis
    · have heq : dfsSeq univ visit (x :: xs) vis s = dfsSeq univ visit xs vis s := by
        simp [dfsSeq, hxv]
      obtain ⟨Δ, hout, hmem, hstop⟩ := ih vis s
      rw [heq]
      refine ⟨Δ, hout, ?_, hstop⟩
      intro hok y hy hyu
      rcases List.mem_cons.mp hy with hyx | hyxs
      · subst hyx
        rw [hout.hvis]
        exact Finset.mem_union_left _ hxv
      · exact hmem hok y hyxs hyu
    · by_cases hxu : x ∈ univ
      · obtain ⟨Δ₀, hout₀, hx₀, hstop₀⟩ := hv x vis s hxu hxv
        cases hok₁ : (visit x vis s).ok
        · have heq : dfsSeq univ visit (x :: xs) vis s = visit x vis s := by
            simp [dfsSeq, hxv, hxu, hok₁]
          rw [heq]
          refine ⟨Δ₀, hout₀, ?_, ?_⟩
          · intro hok; rw [hok₁] at hok; cases hok
          · intro hcard _; exact hstop₀ hcard hok₁
        · have heq : dfsSeq univ visit (x :: xs) vis s =
              dfsSeq univ visit xs (visit x vis s).vis (visit x vis s).st := by
            simp [dfsSeq, hxv, hxu, hok₁]
          obtain ⟨Δ₂, hout₂, hmem₂, hstop₂⟩ := ih (visit x vis s).vis (visit x vis s).st
          rw [heq]
          have hsub : vis ⊆ (visit x vis s).vis := by
            rw [hout₀.hvis]; exact Finset.subset_union_left
          have hsub2 : (visit x vis s).vis ⊆ (dfsSeq univ visit xs (visit x vis s).vis
              (visit x vis s).st).vis := by
            rw [hout₂.hvis]; exact Finset.subset_union_left
          refine ⟨Δ₀ ++ Δ₂, ⟨?_, ?_, ?_, ?_, ?_, ?_, ?_⟩, ?_, ?_⟩
          · rw [hout₂.hvis, hout₀.hvis, List.toFinset_append, Finset.union_assoc]
          · rw [hout₂.hst, hout₀.hst, chainSt_append]
          · rw [List.nodup_append]
            refine ⟨hout₀.hnd, hout₂.hnd, ?_⟩
            intro a ha hb
            have : a ∈ (visit x vis s).vis := by
              rw [hout₀.hvis]
              exact Finset.mem_union_right _ (List.mem_toFinset.mpr ha)
            exact hout₂.hnew a hb this
          · intro a ha
            rcases List.mem_append.mp ha with h | h
            · exact hout₀.hnew a h
            · intro hav
              exact hout₂.hnew a h (hsub hav)
          · intro a ha
            rcases List.mem_append.mp ha with h | h
            · exact hout₀.huniv a h
            · exact hout₂.huniv a h
          · intro hok
            refine chainCont_append f s Δ₀ Δ₂ (hout₀.hcont hok₁) ?_
            rw [← hout₀.hst]
            exact hout₂.hcont hok
          · intro hok a ha c hc hcu
            rcases List.mem_append.mp ha with h | h
            · exact hsub2 (hout₀.hclos hok₁ a h c hc hcu)
            · exact hout₂.hclos hok a h c hc hcu
          · intro hok y hy hyu
            rcases List.mem_cons.mp hy with hyx | hyxs
            · subst hyx
              exact hsub2 (hx₀ hok₁)
            · exact hmem₂ hok y hyxs hyu
          · intro hcard hok
            have hcard2 : (univ \ (visit x vis s).vis).card < n := by
              have : univ \ (visit x vis s).vis ⊆ univ \ vis :=
                Finset.sdiff_subset_sdiff (Finset.Subset.refl _) hsub
              exact Nat.lt_of_le_of_lt (Finset.card_le_card this) hcard
            refine chainStop_append f s Δ₀ Δ₂ (hout₀.hcont hok₁) ?_
            rw [← hout₀.hst]
            exact hstop₂ hcard2 hok
      · have heq : dfsSeq univ visit (x :: xs) vis s = dfsSeq univ visit xs vis s := by
          simp [dfsSeq, hxv, hxu]
        obtain ⟨Δ, hout, hmem, hstop⟩ := ih vis s
        rw [heq]
        refine ⟨Δ, hout, ?_, hstop⟩
        intro hok y hy hyu
        rcases List.mem_cons.mp hy with hyx | hyxs
        · subst hyx; exact absurd hyu hxu
        · exact hmem hok y hyxs hyu

theorem dfsVisit_out (univ : Finset Nat) (adj : Nat → List Nat) (f : σ → Nat → σ × Bool) :
    ∀ fuel, VisitOutProp univ adj f (dfsVisit univ adj f fuel) fuel := by
  intro fuel
  induction fuel with
  | zero =>
    intro x vis s hxu hxv
    refine ⟨[], ⟨by simp [dfsVisit], rfl, by simp, by simp, by simp, ?_, ?_⟩, ?_, ?_⟩
    · intro hok; cases hok
    · intro hok; cases hok
    · intro hok; cases hok
    · intro hcard; omega
  | succ fuel ih =>
    intro x vis s hxu hxv
    cases hfc : (f s x).2
    · have heq : dfsVisit univ adj f (fuel+1) x vis s = ⟨insert x vis, (f s x).1, false⟩ := by
        simp [dfsVisit, hfc]
      rw [heq]
      refine ⟨[x], ⟨?_, rfl, by simp, ?_, ?_, ?_, ?_⟩, ?_, ?_⟩
      · show insert x vis = vis ∪ [x].toFinset
        rw [show ([x] : List Nat).toFinset = {x} from by simp, Finset.union_comm,
          ← Finset.insert_eq]
      · intro a ha
        rw [List.mem_singleton] at ha
        subst ha; exact hxv
      · intro a ha
        rw [List.mem_singleton] at ha
        subst ha; exact hxu
      · intro hok; cases hok
      · intro hok; cases hok
      · intro hok; cases hok
      · intro _ _
        exact Or.inl ⟨hfc, rfl⟩
    · have heq : dfsVisit univ adj f (fuel+1) x vis s =
          dfsSeq univ (dfsVisit univ adj f fuel) (adj x) (insert x vis) (f s x).1 := by
        simp [dfsVisit, hfc]
      obtain ⟨Δ₁, hout₁, hmem₁, hstop₁⟩ :=
        dfsSeq_out univ adj f (dfsVisit univ adj f fuel) fuel ih (adj x) (insert x vis) (f s x).1
      rw [heq]
      have hxnotΔ : x ∉ Δ₁ := fun hx =>
        hout₁.hnew x hx (Finset.mem_insert_self x vis)
      have hxin : x ∈ (dfsSeq univ (dfsVisit univ adj f fuel) (adj x)
          (insert x vis) (f s x).1).vis := by
        rw [hout₁.hvis]
        exact Finset.mem_union_left _ (Finset.mem_insert_self x vis)
      refine ⟨x :: Δ₁, ⟨?_, ?_, ?_, ?_, ?_, ?_, ?_⟩, fun _ => hxin, ?_⟩
      · rw [hout₁.hvis, List.toFinset_cons, Finset.insert_union, Finset.union_insert]
      · rw [hout₁.hst, chainSt_cons]
      · exact List.nodup_cons.mpr ⟨hxnotΔ, hout₁.hnd⟩
      · intro a ha
        rcases List.mem_cons.mp ha with h | h
        · subst h; exact hxv
        · intro hav
          exact hout₁.hnew a h (Finset.mem_insert_of_mem hav)
      · intro a ha
        rcases List.mem_cons.mp ha with h | h
        · subst h; exact hxu
        · exact hout₁.huniv a h
      · intro hok
        exact ⟨hfc, hout₁.hcont hok⟩
      · intro hok a ha c hc hcu
        rcases List.mem_cons.mp ha with h | h
        · subst h
          exact hmem₁ hok c hc hcu
        · exact hout₁.hclos hok a h c hc hcu
      · intro hcard hok
        have hcard2 : (univ \ insert x vis).card < fuel := by
          have hss : univ \ insert x vis ⊂ univ \ vis := by
            refine Finset.ssubset_iff_of_subset
              (Finset.sdiff_subset_sdiff (Finset.Subset.refl _) (Finset.subset_insert _ _))
              |>.mpr ?_
            exact ⟨x, Finset.mem_sdiff.mpr ⟨hxu, hxv⟩,
              fun hx => (Finset.mem_sdiff.mp hx).2 (Finset.mem_insert_self x vis)⟩
          have := Finset.card_lt_card hss
          omega
        exact Or.inr ⟨hfc, hstop₁ hcard2 hok⟩

theorem chainSt_trace (g : Nat → Bool) (tr Δ : List Nat) :
    chainSt (traceVisitor g) tr Δ = tr ++ Δ := by
  induction Δ generalizing tr with
  | nil => simp [chainSt]
  | cons a Δ ih =>
    rw [chainSt_cons, ih]
    simp [traceVisitor]

theorem chainCont_trace (g : Nat → Bool) (s Δ : List Nat)
    (h : ChainCont (traceVisitor g) s Δ) : ∀ a ∈ Δ, g a = true := by
  induction Δ generalizing s with
  | nil => intro a ha; simp at ha
  | cons b Δ ih =>
    obtain ⟨hb, hc⟩ := h
    intro a ha
    rcases List.mem_cons.mp ha with h | h
    · subst h; exact hb
    · exact ih _ hc a h

theorem chainStop_trace (g : Nat → Bool) (s Δ : List Nat)
    (h : ChainStop (traceVisitor g) s Δ) :
    ∃ Δ2 last, Δ = Δ2 ++ [last] ∧ g last = false ∧ (∀ a ∈ Δ2, g a = true) := by
  induction Δ generalizing s with
  | nil => cases h
  | cons b Δ ih =>
    rcases h with ⟨hb, hnil⟩ | ⟨hb, hstop⟩
    · exact ⟨[], b, by rw [hnil]; rfl, hb, by intro a ha; simp at ha⟩
    · obtain ⟨Δ2, last, heq, hlast, hall⟩ := ih _ hstop
      refine ⟨b :: Δ2, last, by rw [heq]; rfl, hlast, ?_⟩
      intro a ha
      rcases List.mem_cons.mp ha with h | h
      · subst h; exact hb
      · exact hall a h

theorem depth_first_traceOut (univ : Finset Nat) (adj : Nat → List Nat) (g : Nat → Bool)
    (start : Nat) (hstart : start ∈ univ) :
    TraceOut g (depth_first univ adj (traceVisitor g) start []) := by
  obtain ⟨Δ, hout, hx, hstop⟩ :=
    dfsVisit_out univ adj (traceVisitor g) (univ.card + 1) start ∅ [] hstart (by simp)
  refine ⟨Δ, ?_, ?_, hout.hnd, ?_, ?_⟩
  · rw [show (depth_first univ adj (traceVisitor g) start []).st =
      chainSt (traceVisitor g) [] Δ from hout.hst, chainSt_trace]
    simp
  · rw [show (depth_first univ adj (traceVisitor g) start []).vis =
      ∅ ∪ Δ.toFinset from hout.hvis]
    simp
  · intro hok
    exact chainCont_trace g [] Δ (hout.hcont hok)
  · intro hok
    refine chainStop_trace g [] Δ (hstop ?_ hok)
    simp [Nat.lt_succ_of_le]

/-- C4. The three `depth_first` overloads (block CFG, call graph,
spawn graph) in either direction and the statement-graph `depth_first`
(forward, as its assertion requires) all visit each node at most once
and, when the visitor stops, invoke it on no further node and
return. -/
theorem claim_C4 :
    (∀ (bl : BlockList) (forward : Bool) (g : Nat → Bool) (start : Nat),
      start ∈ blockUniv bl →
      TraceOut g (depth_first_blocks bl start forward (traceVisitor g) [])) ∧
    (∀ (bl : BlockList) (forward : Bool) (g : Nat → Bool) (start : Nat),
      start ∈ procUniv bl →
      TraceOut g (depth_first_call bl start forward (traceVisitor g) [])) ∧
    (∀ (bl : BlockList) (forward : Bool) (g : Nat → Bool) (start : Nat),
      start ∈ procUniv bl →
      TraceOut g (depth_first_spawn bl start forward (traceVisitor g) [])) ∧
    (∀ (ar : List StmtNode) (g : Nat → Bool) (start : Nat),
      start ∈ stmtUniv ar →
      ∃ r, depth_first_stmts ar start true (traceVisitor g) [] = some r ∧ TraceOut g r) := by
  refine ⟨?_, ?_, ?_, ?_⟩
  · intro bl forward g start h
    exact depth_first_traceOut (blockUniv bl) (blockAdj bl forward) g start h
  · intro bl forward g start h
    exact depth_first_traceOut (procUniv bl) (callAdj bl forward) g start h
  · intro bl forward g start h
    exact depth_first_traceOut (procUniv bl) (spawnAdj bl forward) g start h
  · intro ar g start h
    exact ⟨depth_first (stmtUniv ar) (stmtAdj ar) (traceVisitor g) start [], rfl,
      depth_first_traceOut (stmtUniv ar) (stmtAdj ar) g start h⟩

/-- C4 witness: the four contracts applied to concrete one-node
graphs. -/
theorem claim_C4_witness :
    TraceOut (fun _ => true)
      (depth_first_blocks ⟨[default], []⟩ 0 true (traceVisitor (fun _ => true)) []) ∧
    TraceOut (fun _ => true)
      (depth_first_call ⟨[], [default]⟩ 0 true (traceVisitor (fun _ => true)) []) ∧
    TraceOut (fun _ => true)
      (depth_first_spawn ⟨[], [default]⟩ 0 false (traceVisitor (fun _ => true)) []) ∧
    (∃ r, depth_first_stmts [default] 0 true (traceVisitor (fun _ => true)) [] = some r ∧
      TraceOut (fun _ => true) r) :=
  ⟨claim_C4.1 ⟨[default], []⟩ true (fun _ => true) 0 (by decide),
   claim_C4.2.1 ⟨[], [default]⟩ true (fun _ => true) 0 (by decide),
   claim_C4.2.2.1 ⟨[], [default]⟩ false (fun _ => true) 0 (by decide),
   claim_C4.2.2.2 [default] (fun _ => true) 0 (by decide)⟩

theorem stmtGetD_modify_loop_fields (ar : List StmtNode) (self head tail i : Nat) :
    (stmtGetD (listModify ar self
      (fun nd => { nd with loop_head := head, loop_tail := tail })) i).succ =
    (stmtGetD ar i).succ := by
  unfold stmtGetD
  by_cases hi : i = self
  · subst hi
    by_cases hr : i < ar.length
    · rw [listModify_getD_same _ _ _ _ hr]
    · rw [listModify_out_of_range _ _ _ (by omega)]
  · rw [listModify_getD_other _ _ _ _ _ hi]

/-- C9. `StatementWhile::setup` succeeds exactly when the loop head
has two successors and `StatementWhile::break_node` succeeds exactly
when the while node has one successor; outside those preconditions the
`Expects` assertion aborts (`none`), so a head with a successor count
other than two is rejected rather than structured. -/
theorem claim_C9 (ar : List StmtNode) (self head tail w : Nat) :
    ((StatementWhile.setup ar self head tail).isSome ↔
      (stmtGetD ar head).succ.length = 2) ∧
    ((stmtGetD ar head).succ.length ≠ 2 → StatementWhile.setup ar self head tail = none) ∧
    ((StatementWhile.break_node ar w).isSome ↔ (stmtGetD ar w).succ.length = 1) ∧
    ((stmtGetD ar w).succ.length ≠ 1 → StatementWhile.break_node ar w = none) := by
  have hguard : (stmtGetD (listModify ar self
      (fun nd => { nd with loop_head := head, loop_tail := tail })) head).succ =
      (stmtGetD ar head).succ := stmtGetD_modify_loop_fields ar self head tail head
  refine ⟨?_, ?_, ?_, ?_⟩
  · by_cases h : (stmtGetD ar head).succ.length = 2 <;>
      simp [StatementWhile.setup, hguard, h]
  · intro h
    simp [StatementWhile.setup, hguard, h]
  · by_cases h : (stmtGetD ar w).succ.length = 1 <;>
      simp [StatementWhile.break_node, h]
  · intro h
    simp [StatementWhile.break_node, h]

/-- C9 witness: the theorem applied to the concrete arena. -/
theorem claim_C9_witness :
    ((StatementWhile.setup c9Arena 0 1 2).isSome ↔
      (stmtGetD c9Arena 1).succ.length = 2) ∧
    ((stmtGetD c9Arena 1).succ.length ≠ 2 → StatementWhile.setup c9Arena 0 1 2 = none) ∧
    ((StatementWhile.break_node c9Arena 0).isSome ↔ (stmtGetD c9Arena 0).succ.length = 1) ∧
    ((stmtGetD c9Arena 0).succ.length ≠ 1 → StatementWhile.break_node c9Arena 0 = none) :=
  claim_C9 c9Arena 0 1 2 0

theorem stmtGetD_modify_same (ar : List StmtNode) (i : Nat) (f : StmtNode → StmtNode)
    (h : i < ar.length) : stmtGetD (listModify ar i f) i = f (stmtGetD ar i) :=
  listModify_getD_same ar i f default h

theorem stmtGetD_modify_other (ar : List StmtNode) (i j : Nat) (f : StmtNode → StmtNode)
    (h : j ≠ i) : stmtGetD (listModify ar i f) j = stmtGetD ar j :=
  listModify_getD_other ar i j f default h

theorem map_replace_idem (h w : Nat) (hwh : ¬ w = h) (l : List Nat) :
    (l.map (fun x => if x = h then w else x)).map (fun x => if x = h then w else x) =
      l.map (fun x => if x = h then w else x) := by
  rw [List.map_map]
  refine List.map_congr_left ?_
  intro x _
  by_cases hx : x = h
  · simp [hx, hwh]
  · simp [hx]

theorem unlinkPredsAux_spec (h w t : Nat) (hwh : ¬ w = h) :
    ∀ (plist kept : List Nat) (ar : List StmtNode),
      h < ar.length → w < ar.length →
      (unlinkPredsAux h w (some t) plist kept ar).length = ar.length ∧
      (stmtGetD (unlinkPredsAux h w (some t) plist kept ar) h).pred =
        kept ++ plist.filter (fun p => p = t) ∧
      (stmtGetD (unlinkPredsAux h w (some t) plist kept ar) w).pred =
        (stmtGetD ar w).pred ++ plist.filter (fun p => ¬ p = t) ∧
      (∀ c, (stmtGetD (unlinkPredsAux h w (some t) plist kept ar) c).succ =
        if c ∈ plist.filter (fun p => ¬ p = t) then
          ((stmtGetD ar c).succ).map (fun x => if x = h then w else x)
        else (stmtGetD ar c).succ) ∧
      (∀ c, ¬ c = h → ¬ c = w → c ∉ plist →
        stmtGetD (unlinkPredsAux h w (some t) plist kept ar) c = stmtGetD ar c) ∧
      (∀ c, (stmtGetD (unlinkPredsAux h w (some t) plist kept ar) c).type =
          (stmtGetD ar c).type ∧
        (stmtGetD (unlinkPredsAux h w (some t) plist kept ar) c).block_id =
          (stmtGetD ar c).block_id ∧
        (stmtGetD (unlinkPredsAux h w (some t) plist kept ar) c).block_until =
          (stmtGetD ar c).block_until) := by
  intro plist
  induction plist with
  | nil =>
    intro kept ar hh hw
    simp only [unlinkPredsAux, List.filter_nil, List.append_nil]
    refine ⟨listModify_length _ _ _, ?_, ?_, ?_, ?_, ?_⟩
    · rw [stmtGetD_modify_same _ _ _ hh]
    · rw [stmtGetD_modify_other _ _ _ _ hwh]
    · intro c
      simp only [List.not_mem_nil, if_false]
      by_cases hch : c = h
      · subst hch; rw [stmtGetD_modify_same _ _ _ hh]
      · rw [stmtGetD_modify_other _ _ _ _ hch]
    · intro c hch _ _
      rw [stmtGetD_modify_other _ _ _ _ hch]
    · intro c
      by_cases hch : c = h
      · subst hch; rw [stmtGetD_modify_same _ _ _ hh]; exact ⟨rfl, rfl, rfl⟩
      · rw [stmtGetD_modify_other _ _ _ _ hch]; exact ⟨rfl, rfl, rfl⟩
  | cons p rest ih =>
    intro kept ar hh hw
    by_cases hpt : p = t
    · have heq : unlinkPredsAux h w (some t) (p :: rest) kept ar =
          unlinkPredsAux h w (some t) rest (kept ++ [p]) ar := by
        simp [unlinkPredsAux, hpt]
      rw [heq]
      obtain ⟨h1, h2, h3, h4, h5, h6⟩ := ih (kept ++ [p]) ar hh hw
      refine ⟨h1, ?_, ?_, ?_, ?_, h6⟩
      · rw [h2]
        simp [hpt, List.filter_cons]
      · rw [h3]
        simp [hpt, List.filter_cons]
      · intro c
        rw [h4 c]
        simp [hpt, List.filter_cons]
      · intro c hch hcw hcp
        exact h5 c hch hcw (fun hm => hcp (List.mem_cons_of_mem p hm))
    · set f1 : StmtNode → StmtNode := fun nd =>
        { nd with succ := nd.succ.map (fun e => if e = h then w else e) } with hf1
      set f2 : StmtNode → StmtNode := fun nd => { nd with pred := nd.pred ++ [p] } with hf2
      have heq : unlinkPredsAux h w (some t) (p :: rest) kept ar =
          unlinkPredsAux h w (some t) rest kept
            (listModify (listModify ar p f1) w f2) := by
        simp [unlinkPredsAux, hpt, hf1, hf2]
      set ar2 : List StmtNode := listModify (listModify ar p f1) w f2 with har2
      have hlen2 : ar2.length = ar.length := by
        rw [har2, listModify_length, listModify_length]
      have hsucc2 : ∀ c, (stmtGetD ar2 c).succ =
          if c = p then ((stmtGetD ar c).succ).map (fun x => if x = h then w else x)
          else (stmtGetD ar c).succ := by
        intro c
        by_cases hcw : c = w
        · subst hcw
          by_cases hcr : c < ar.length
          · rw [har2, stmtGetD_modify_same _ _ _ (by rwa [listModify_length])]
            by_cases hcp : c = p
            · subst hcp
              rw [stmtGetD_modify_same _ _ _ hcr]
              simp [f1, f2]
            · rw [stmtGetD_modify_other _ _ _ _ hcp]
              simp [f2, hcp]
          · omega
        · rw [har2, stmtGetD_modify_other _ _ _ _ hcw]
          by_cases hcp : c = p
          · subst hcp
            by_cases hcr : c < ar.length
            · rw [stmtGetD_modify_same _ _ _ hcr]; simp [f1]
            · rw [listModify_out_of_range _ _ _ (by omega)]
              simp [f1]
              unfold stmtGetD
              rw [List.getD_eq_default _ _ (by omega)]
              simp [default]
          · rw [stmtGetD_modify_other _ _ _ _ hcp]
            simp [hcp]
      have hpred2w : (stmtGetD ar2 w).pred = (stmtGetD ar w).pred ++ [p] := by
        rw [har2, stmtGetD_modify_same _ _ _ (by rwa [listModify_length])]
        by_cases hwp : w = p
        · subst hwp
          rw [stmtGetD_modify_same _ _ _ hw]
        · rw [stmtGetD_modify_other _ _ _ _ hwp]
      have hpred2h : (stmtGetD ar2 h).pred = (stmtGetD ar h).pred := by
        rw [har2, stmtGetD_modify_other _ _ _ _ (fun hc => hwh hc.symm)]
        by_cases hhp : h = p
        · subst hhp
          by_cases hcr : h < ar.length
          · rw [stmtGetD_modify_same _ _ _ hcr]
          · rw [listModify_out_of_range _ _ _ (by omega)]
        · rw [stmtGetD_modify_other _ _ _ _ hhp]
      have hother2 : ∀ c, ¬ c = w → ¬ c = p → stmtGetD ar2 c = stmtGetD ar c := by
        intro c hcw hcp
        rw [har2, stmtGetD_modify_other _ _ _ _ hcw, stmtGetD_modify_other _ _ _ _ hcp]
      have hfields2 : ∀ c, (stmtGetD ar2 c).type = (stmtGetD ar c).type ∧
          (stmtGetD ar2 c).block_id = (stmtGetD ar c).block_id ∧
          (stmtGetD ar2 c).block_until = (stmtGetD ar c).block_until := by
        intro c
        by_cases hcw : c = w
        · subst hcw
          rw [har2, stmtGetD_modify_same _ _ _ (by rwa [listModify_length])]
          by_cases hcp : c = p
          · subst hcp
            by_cases hcr : c < ar.length
            · rw [stmtGetD_modify_same _ _ _ hcr]; simp [f1, f2]
            · omega
          · rw [stmtGetD_modify_other _ _ _ _ hcp]; simp [f2]
        · rw [har2, stmtGetD_modify_other _ _ _ _ hcw]
          by_cases hcp : c = p
          · subst hcp
            by_cases hcr : c < ar.length
            · rw [stmtGetD_modify_same _ _ _ hcr]; simp [f1]
            · rw [listModify_out_of_range _ _ _ (by omega)]
              exact ⟨rfl, rfl, rfl⟩
          · rw [stmtGetD_modify_other _ _ _ _ hcp]
            exact ⟨rfl, rfl, rfl⟩
      rw [heq]
      obtain ⟨h1, h2, h3, h4, h5, h6⟩ := ih kept ar2 (by omega) (by omega)
      refine ⟨by rw [h1, hlen2], ?_, ?_, ?_, ?_, ?_⟩
      · rw [h2]
        simp [List.filter_cons, hpt]
      · rw [h3, hpred2w]
        simp [List.filter_cons, hpt]
      · intro c
        rw [h4 c, hsucc2 c]
        have hfc : (p :: rest).filter (fun q => ¬ q = t) =
            p :: rest.filter (fun q => ¬ q = t) := by
          simp [List.filter_cons, hpt]
        rw [hfc]
        split_ifs <;> simp_all [List.mem_cons, map_replace_idem h w hwh]
      · intro c hch hcw hcp
        rw [h5 c hch hcw (fun hm => hcp (List.mem_cons_of_mem p hm)),
          hother2 c hcw (fun hc => hcp (by rw [hc]; exact List.mem_cons_self p rest))]
      · intro c
        obtain ⟨g1, g2, g3⟩ := h6 c
        obtain ⟨k1, k2, k3⟩ := hfields2 c
        exact ⟨g1.trans k1, g2.trans k2, g3.trans k3⟩

theorem stmtGetD_append_lt (ar : List StmtNode) (nd : StmtNode) (i : Nat)
    (h : i < ar.length) : stmtGetD (ar ++ [nd]) i = stmtGetD ar i := by
  unfold stmtGetD
  rw [List.getD_eq_getElem?_getD, List.getD_eq_getElem?_getD,
    List.getElem?_append_left h]

theorem stmtGetD_append_len (ar : List StmtNode) (nd : StmtNode) :
    stmtGetD (ar ++ [nd]) ar.length = nd := by
  unfold stmtGetD
  rw [List.getD_eq_getElem?_getD, List.getElem?_append_right (Nat.le_refl _)]
  simp

theorem stmtGetD_modify_loop_all (ar : List StmtNode) (self head tail i : Nat) :
    (stmtGetD (listModify ar self
      (fun nd => { nd with loop_head := head, loop_tail := tail })) i).succ =
      (stmtGetD ar i).succ ∧
    (stmtGetD (listModify ar self
      (fun nd => { nd with loop_head := head, loop_tail := tail })) i).pred =
      (stmtGetD ar i).pred ∧
    (stmtGetD (listModify ar self
      (fun nd => { nd with loop_head := head, loop_tail := tail })) i).type =
      (stmtGetD ar i).type ∧
    (stmtGetD (listModify ar self
      (fun nd => { nd with loop_head := head, loop_tail := tail })) i).block_id =
      (stmtGetD ar i).block_id ∧
    (stmtGetD (listModify ar self
      (fun nd => { nd with loop_head := head, loop_tail := tail })) i).block_until =
      (stmtGetD ar i).block_until := by
  by_cases hi : i = self
  · subst hi
    by_cases hr : i < ar.length
    · rw [stmtGetD_modify_same _ _ _ hr]
      exact ⟨rfl, rfl, rfl, rfl, rfl⟩
    · rw [listModify_out_of_range _ _ _ (by omega)]
      exact ⟨rfl, rfl, rfl, rfl, rfl⟩
  · rw [stmtGetD_modify_other _ _ _ _ hi]
    exact ⟨rfl, rfl, rfl, rfl, rfl⟩

theorem addSuccessor_spec (ar : List StmtNode) (x y : Nat)
    (hx : x < ar.length) (hy : y < ar.length) :
    (addSuccessor ar x y).length = ar.length ∧
    (stmtGetD (addSuccessor ar x y) x).succ = (stmtGetD ar x).succ ++ [y] ∧
    (stmtGetD (addSuccessor ar x y) y).pred = (stmtGetD ar y).pred ++ [x] ∧
    (∀ c, ¬ c = x → (stmtGetD (addSuccessor ar x y) c).succ = (stmtGetD ar c).succ) ∧
    (∀ c, ¬ c = y → (stmtGetD (addSuccessor ar x y) c).pred = (stmtGetD ar c).pred) ∧
    (∀ c, (stmtGetD (addSuccessor ar x y) c).type = (stmtGetD ar c).type ∧
      (stmtGetD (addSuccessor ar x y) c).block_id = (stmtGetD ar c).block_id ∧
      (stmtGetD (addSuccessor ar x y) c).block_until = (stmtGetD ar c).block_until) := by
  unfold addSuccessor
  refine ⟨by rw [listModify_length, listModify_length], ?_, ?_, ?_, ?_, ?_⟩
  · by_cases hxy : x = y
    · subst hxy
      rw [stmtGetD_modify_same _ _ _ (by rwa [listModify_length]),
        stmtGetD_modify_same _ _ _ hx]
    · rw [stmtGetD_modify_other _ _ _ _ hxy, stmtGetD_modify_same _ _ _ hx]
  · rw [stmtGetD_modify_same _ _ _ (by rwa [listModify_length])]
    by_cases hyx : y = x
    · subst hyx
      rw [stmtGetD_modify_same _ _ _ hx]
    · rw [stmtGetD_modify_other _ _ _ _ hyx]
  · intro c hcx
    by_cases hcy : c = y
    · subst hcy
      rw [stmtGetD_modify_same _ _ _ (by rwa [listModify_length]),
        stmtGetD_modify_other _ _ _ _ hcx]
    · rw [stmtGetD_modify_other _ _ _ _ hcy, stmtGetD_modify_other _ _ _ _ hcx]
  · intro c hcy
    rw [stmtGetD_modify_other _ _ _ _ hcy]
    by_cases hcx : c = x
    · subst hcx
      rw [stmtGetD_modify_same _ _ _ hx]
    · rw [stmtGetD_modify_other _ _ _ _ hcx]
  · intro c
    by_cases hcy : c = y
    · subst hcy
      rw [stmtGetD_modify_same _ _ _ (by rwa [listModify_length])]
      by_cases hcx : c = x
      · subst hcx
        rw [stmtGetD_modify_same _ _ _ hx]
        exact ⟨rfl, rfl, rfl⟩
      · rw [stmtGetD_modify_other _ _ _ _ hcx]
        exact ⟨rfl, rfl, rfl⟩
    · rw [stmtGetD_modify_other _ _ _ _ hcy]
      by_cases hcx : c = x
      · subst hcx
        rw [stmtGetD_modify_same _ _ _ hx]
        exact ⟨rfl, rfl, rfl⟩
      · rw [stmtGetD_modify_other _ _ _ _ hcx]
        exact ⟨rfl, rfl, rfl⟩

theorem unlinkPredsAux_pred_other (h w t : Nat) :
    ∀ (plist kept : List Nat) (ar : List StmtNode) (c : Nat), ¬ c = h → ¬ c = w →
      (stmtGetD (unlinkPredsAux h w (some t) plist kept ar) c).pred =
        (stmtGetD ar c).pred := by
  intro plist
  induction plist with
  | nil =>
    intro kept ar c hch hcw
    simp only [unlinkPredsAux]
    rw [stmtGetD_modify_other _ _ _ _ hch]
  | cons p rest ih =>
    intro kept ar c hch hcw
    by_cases hpt : p = t
    · have heq : unlinkPredsAux h w (some t) (p :: rest) kept ar =
          unlinkPredsAux h w (some t) rest (kept ++ [p]) ar := by
        simp [unlinkPredsAux, hpt]
      rw [heq, ih _ _ c hch hcw]
    · have heq : unlinkPredsAux h w (some t) (p :: rest) kept ar =
          unlinkPredsAux h w (some t) rest kept
            (listModify (listModify ar p
              (fun nd => { nd with succ := nd.succ.map (fun e => if e = h then w else e) }))
              w (fun nd => { nd with pred := nd.pred ++ [p] })) := by
        simp [unlinkPredsAux, hpt]
      rw [heq, ih _ _ c hch hcw, stmtGetD_modify_other _ _ _ _ hcw]
      by_cases hcp : c = p
      · subst hcp
        by_cases hcr : c < ar.length
        · rw [stmtGetD_modify_same _ _ _ hcr]
        · rw [listModify_out_of_range _ _ _ (by omega)]
      · rw [stmtGetD_modify_other _ _ _ _ hcp]

theorem stmtGetD_modify_pred_only (ar : List StmtNode) (i c : Nat) (g : List Nat → List Nat) :
    (stmtGetD (listModify ar i (fun nd => { nd with pred := g nd.pred })) c).succ =
      (stmtGetD ar c).succ ∧
    (stmtGetD (listModify ar i (fun nd => { nd with pred := g nd.pred })) c).type =
      (stmtGetD ar c).type ∧
    (stmtGetD (listModify ar i (fun nd => { nd with pred := g nd.pred })) c).block_id =
      (stmtGetD ar c).block_id ∧
    (stmtGetD (listModify ar i (fun nd => { nd with pred := g nd.pred })) c).block_until =
      (stmtGetD ar c).block_until ∧
    (¬ c = i → (stmtGetD (listModify ar i (fun nd => { nd with pred := g nd.pred })) c).pred =
      (stmtGetD ar c).pred) ∧
    (c = i → i < ar.length →
      (stmtGetD (listModify ar i (fun nd => { nd with pred := g nd.pred })) c).pred =
        g (stmtGetD ar c).pred) := by
  by_cases hci : c = i
  · subst hci
    by_cases hr : c < ar.length
    · rw [stmtGetD_modify_same _ _ _ hr]
      exact ⟨rfl, rfl, rfl, rfl, fun hc => absurd rfl hc, fun _ _ => rfl⟩
    · rw [listModify_out_of_range _ _ _ (by omega)]
      exact ⟨rfl, rfl, rfl, rfl, fun _ => rfl, fun _ hc => absurd hc hr⟩
  · rw [stmtGetD_modify_other _ _ _ _ hci]
    exact ⟨rfl, rfl, rfl, rfl, fun _ => rfl, fun hc => absurd hc hci⟩

theorem stmtGetD_modify_succ_only (ar : List StmtNode) (i c : Nat) (g : List Nat → List Nat) :
    (stmtGetD (listModify ar i (fun nd => { nd with succ := g nd.succ })) c).pred =
      (stmtGetD ar c).pred ∧
    (stmtGetD (listModify ar i (fun nd => { nd with succ := g nd.succ })) c).type =
      (stmtGetD ar c).type ∧
    (stmtGetD (listModify ar i (fun nd => { nd with succ := g nd.succ })) c).block_id =
      (stmtGetD ar c).block_id ∧
    (stmtGetD (listModify ar i (fun nd => { nd with succ := g nd.succ })) c).block_until =
      (stmtGetD ar c).block_until ∧
    (¬ c = i → (stmtGetD (listModify ar i (fun nd => { nd with succ := g nd.succ })) c).succ =
      (stmtGetD ar c).succ) ∧
    (c = i → i < ar.length →
      (stmtGetD (listModify ar i (fun nd => { nd with succ := g nd.succ })) c).succ =
        g (stmtGetD ar c).succ) := by
  by_cases hci : c = i
  · subst hci
    by_cases hr : c < ar.length
    · rw [stmtGetD_modify_same _ _ _ hr]
      exact ⟨rfl, rfl, rfl, rfl, fun hc => absurd rfl hc, fun _ _ => rfl⟩
    · rw [listModify_out_of_range _ _ _ (by omega)]
      exact ⟨rfl, rfl, rfl, rfl, fun _ => rfl, fun _ hc => absurd hc hr⟩
  · rw [stmtGetD_modify_other _ _ _ _ hci]
    exact ⟨rfl, rfl, rfl, rfl, fun _ => rfl, fun hc => absurd hc hci⟩

theorem stmtGetD_modify_bu_only (ar : List StmtNode) (i c : Nat) :
    (stmtGetD (listModify ar i
      (fun nd => { nd with block_until := nd.block_until + 1 })) c).pred =
      (stmtGetD ar c).pred ∧
    (stmtGetD (listModify ar i
      (fun nd => { nd with block_until := nd.block_until + 1 })) c).succ =
      (stmtGetD ar c).succ ∧
    (stmtGetD (listModify ar i
      (fun nd => { nd with block_until := nd.block_until + 1 })) c).type =
      (stmtGetD ar c).type ∧
    (c = i → i < ar.length →
      (stmtGetD (listModify ar i
        (fun nd => { nd with block_until := nd.block_until + 1 })) c).block_until =
        (stmtGetD ar c).block_until + 1) := by
  by_cases hci : c = i
  · subst hci
    by_cases hr : c < ar.length
    · rw [stmtGetD_modify_same _ _ _ hr]
      exact ⟨rfl, rfl, rfl, fun _ _ => rfl⟩
    · rw [listModify_out_of_range _ _ _ (by omega)]
      exact ⟨rfl, rfl, rfl, fun _ hc => absurd hc hr⟩
  · rw [stmtGetD_modify_other _ _ _ _ hci]
    exact ⟨rfl, rfl, rfl, fun hc => absurd hc hci⟩

/-- C2. Applying `StatementWhile::setup` to a head with exactly two
successors (the first being the loop exit): every predecessor of the
head other than the tail gets its `succ` entries for the head replaced
by the while node and is removed from the head's `pred` list; the
head's exit successor is replaced by a newly created `StatementBreak`
node; that former exit node becomes a successor of the while node; and
the tail's `block_until` grows by exactly one. -/
theorem claim_C2 (ar : List StmtNode) (w h t e b : Nat)
    (hh : h < ar.length) (ht : t < ar.length) (hw : w < ar.length) (he : e < ar.length)
    (hsucc : (stmtGetD ar h).succ = [e, b])
    (hwh : ¬ w = h) (_hwt : ¬ w = t) (hwe : ¬ w = e) (heh : ¬ e = h) (heb : ¬ b = e)
    (hniP : h ∉ (stmtGetD ar h).pred)
    (hwniP : w ∉ (stmtGetD ar h).pred)
    (hPr : ∀ p ∈ (stmtGetD ar h).pred, p < ar.length) :
    ∃ ar5, StatementWhile.setup ar w h t = some ar5 ∧
      ar5.length = ar.length + 1 ∧
      (∀ p ∈ (stmtGetD ar h).pred, ¬ p = t →
        (stmtGetD ar5 p).succ =
          ((stmtGetD ar p).succ).map (fun x => if x = h then w else x)) ∧
      (stmtGetD ar5 h).pred = ((stmtGetD ar h).pred).filter (fun p => p = t) ∧
      (stmtGetD ar5 h).succ = [ar.length, b] ∧
      (stmtGetD ar5 ar.length).type = StmtType.Break ∧
      (stmtGetD ar5 ar.length).pred = [h] ∧
      (stmtGetD ar5 ar.length).succ = [] ∧
      (stmtGetD ar5 e).pred = ((stmtGetD ar e).pred).erase h ++ [w] ∧
      (stmtGetD ar5 w).succ = (stmtGetD ar w).succ ++ [e] ∧
      (stmtGetD ar5 t).block_until = (stmtGetD ar t).block_until + 1 := by
  have hA0 := fun i => stmtGetD_modify_loop_all ar w h t i
  have hA0other : ∀ c, ¬ c = w →
      stmtGetD (listModify ar w (fun nd => { nd with loop_head := h, loop_tail := t })) c =
        stmtGetD ar c := fun c hc => stmtGetD_modify_other _ _ _ _ hc
  have hlen0 : (listModify ar w
      (fun nd => { nd with loop_head := h, loop_tail := t })).length = ar.length :=
    listModify_length _ _ _
  have hguard0 : (stmtGetD (listModify ar w
      (fun nd => { nd with loop_head := h, loop_tail := t })) h).succ = [e, b] := by
    rw [(hA0 h).1, hsucc]
  have hpred0 : (stmtGetD (listModify ar w
      (fun nd => { nd with loop_head := h, loop_tail := t })) h).pred =
      (stmtGetD ar h).pred := (hA0 h).2.1
  -- the unfolded setup equation
  have hsetup : StatementWhile.setup ar w h t =
      some (listModify (addSuccessor (replace_successor
        (unlink_preds (listModify ar w
          (fun nd => { nd with loop_head := h, loop_tail := t })) h w (some t) ++ [mkStmtBreak])
        h e
        (unlink_preds (listModify ar w
          (fun nd => { nd with loop_head := h, loop_tail := t })) h w (some t)).length)
        w e) t (fun nd => { nd with block_until := nd.block_until + 1 })) := by
    simp only [StatementWhile.setup]
    rw [hguard0]
    simp
  set A0 := listModify ar w (fun nd => { nd with loop_head := h, loop_tail := t }) with hA0def
  set A1 := unlink_preds A0 h w (some t) with hA1def
  set A2 := A1 ++ [mkStmtBreak] with hA2def
  set A3 := replace_successor A2 h e A1.length with hA3def
  set A4 := addSuccessor A3 w e with hA4def
  set A5 := listModify A4 t (fun nd => { nd with block_until := nd.block_until + 1 }) with hA5def
  have hA1aux : A1 = unlinkPredsAux h w (some t) ((stmtGetD ar h).pred) [] A0 := by
    rw [hA1def]
    unfold unlink_preds
    rw [hpred0]
  obtain ⟨u1, u2, u3, u4, u5, u6⟩ :=
    unlinkPredsAux_spec h w t hwh ((stmtGetD ar h).pred) [] A0
      (by rw [hlen0]; exact hh) (by rw [hlen0]; exact hw)
  have hlen1 : A1.length = ar.length := by rw [hA1aux, u1, hlen0]
  have hpredh1 : (stmtGetD A1 h).pred =
      ((stmtGetD ar h).pred).filter (fun p => p = t) := by
    rw [hA1aux, u2]
    simp
  have hsucc1 : ∀ c, (stmtGetD A1 c).succ =
      if c ∈ ((stmtGetD ar h).pred).filter (fun p => ¬ p = t) then
        ((stmtGetD ar c).succ).map (fun x => if x = h then w else x)
      else (stmtGetD ar c).succ := by
    intro c
    rw [hA1aux, u4 c, (hA0 c).1]
  have hfields1 : ∀ c, (stmtGetD A1 c).type = (stmtGetD ar c).type ∧
      (stmtGetD A1 c).block_id = (stmtGetD ar c).block_id ∧
      (stmtGetD A1 c).block_until = (stmtGetD ar c).block_until := by
    intro c
    obtain ⟨g1, g2, g3⟩ := u6 c
    obtain ⟨_, _, k1, k2, k3⟩ := hA0 c
    rw [hA1aux]
    exact ⟨g1.trans k1, g2.trans k2, g3.trans k3⟩
  have hpredother1 : ∀ c, ¬ c = h → ¬ c = w →
      (stmtGetD A1 c).pred = (stmtGetD ar c).pred := by
    intro c hch hcw
    rw [hA1aux, unlinkPredsAux_pred_other h w t _ _ _ c hch hcw, (hA0 c).2.1]
  have hsucch1 : (stmtGetD A1 h).succ = [e, b] := by
    rw [hsucc1 h, if_neg (fun hm => hniP (List.mem_filter.mp hm).1), hsucc]
  have hsuccw1 : (stmtGetD A1 w).succ = (stmtGetD ar w).succ := by
    rw [hsucc1 w, if_neg (fun hm => hwniP (List.mem_filter.mp hm).1)]
  have hprede1 : (stmtGetD A1 e).pred = (stmtGetD ar e).pred :=
    hpredother1 e heh (fun hc => hwe hc.symm)
  have hlen2 : A2.length = ar.length + 1 := by
    rw [hA2def]
    simp [hlen1]
  have hlt2 : ∀ i, i < ar.length → stmtGetD A2 i = stmtGetD A1 i := by
    intro i hi
    rw [hA2def]
    exact stmtGetD_append_lt _ _ _ (by rw [hlen1]; exact hi)
  have hmk2 : stmtGetD A2 ar.length = mkStmtBreak := by
    rw [hA2def, ← hlen1]
    exact stmtGetD_append_len _ _
  have hsnap : (stmtGetD A2 h).succ = [e, b] := by rw [hlt2 h hh, hsucch1]
  have hA3eq : A3 = listModify (listModify (listModify A2 h
      (fun nd => { nd with succ := nd.succ.set 0 A1.length }))
      A1.length (fun nd => { nd with pred := nd.pred ++ [h] }))
      e (fun nd => { nd with pred := nd.pred.erase h }) := by
    rw [hA3def]
    unfold replace_successor
    rw [hsnap]
    simp [replaceSuccessorAux, heb]
  rw [hlen1] at hA3eq
  have hbne_h : ¬ (ar.length : Nat) = h := by omega
  have hbne_e : ¬ (ar.length : Nat) = e := by omega
  have hbne_w : ¬ (ar.length : Nat) = w := by omega
  have hene_b : ¬ (e : Nat) = ar.length := by omega
  have hhne_b : ¬ (h : Nat) = ar.length := by omega
  have hwne_b : ¬ (w : Nat) = ar.length := by omega
  have htne_b : ¬ (t : Nat) = ar.length := by omega
  have hlen3 : A3.length = ar.length + 1 := by
    rw [hA3eq, listModify_length, listModify_length, listModify_length, hlen2]
  have hsucc3 : ∀ c, ¬ c = h → (stmtGetD A3 c).succ = (stmtGetD A2 c).succ := by
    intro c hch
    rw [hA3eq]
    rw [(stmtGetD_modify_pred_only _ e c (fun l => l.erase h)).1, (stmtGetD_modify_pred_only _ (ar.length) c (fun l => l ++ [h])).1,
      (stmtGetD_modify_succ_only _ h c (fun l => l.set 0 ar.length)).2.2.2.2.1 hch]
  have hsucc3h : (stmtGetD A3 h).succ = [ar.length, b] := by
    rw [hA3eq, (stmtGetD_modify_pred_only _ e h (fun l => l.erase h)).1,
      (stmtGetD_modify_pred_only _ (ar.length) h (fun l => l ++ [h])).1,
      (stmtGetD_modify_succ_only _ h h (fun l => l.set 0 ar.length)).2.2.2.2.2 rfl (by rw [hlen2]; omega), hsnap]
    rfl
  have hpred3 : ∀ c, ¬ c = e → ¬ c = ar.length →
      (stmtGetD A3 c).pred = (stmtGetD A2 c).pred := by
    intro c hce hcb
    rw [hA3eq, (stmtGetD_modify_pred_only _ e c (fun l => l.erase h)).2.2.2.2.1 hce,
      (stmtGetD_modify_pred_only _ (ar.length) c (fun l => l ++ [h])).2.2.2.2.1 hcb,
      (stmtGetD_modify_succ_only _ h c (fun l => l.set 0 ar.length)).1]
  have hpred3bid : (stmtGetD A3 ar.length).pred = [h] := by
    rw [hA3eq, (stmtGetD_modify_pred_only _ e (ar.length) (fun l => l.erase h)).2.2.2.2.1 hbne_e,
      (stmtGetD_modify_pred_only _ (ar.length) (ar.length) (fun l => l ++ [h])).2.2.2.2.2 rfl
        (by rw [listModify_length, hlen2]; omega),
      (stmtGetD_modify_succ_only _ h (ar.length) (fun l => l.set 0 ar.length)).1, hmk2]
    rfl
  have hpred3e : (stmtGetD A3 e).pred = ((stmtGetD ar e).pred).erase h := by
    rw [hA3eq, (stmtGetD_modify_pred_only _ e e (fun l => l.erase h)).2.2.2.2.2 rfl
        (by rw [listModify_length, listModify_length, hlen2]; omega),
      (stmtGetD_modify_pred_only _ (ar.length) e (fun l => l ++ [h])).2.2.2.2.1 hene_b,
      (stmtGetD_modify_succ_only _ h e (fun l => l.set 0 ar.length)).1, hlt2 e he, hprede1]
  have hfields3 : ∀ c, (stmtGetD A3 c).type = (stmtGetD A2 c).type ∧
      (stmtGetD A3 c).block_id = (stmtGetD A2 c).block_id ∧
      (stmtGetD A3 c).block_until = (stmtGetD A2 c).block_until := by
    intro c
    rw [hA3eq]
    obtain ⟨_, p1, p2, p3, _, _⟩ := stmtGetD_modify_pred_only
      (listModify (listModify A2 h (fun nd => { nd with succ := nd.succ.set 0 ar.length }))
        (ar.length) (fun nd => { nd with pred := nd.pred ++ [h] })) e c
      (fun l => l.erase h)
    obtain ⟨_, q1, q2, q3, _, _⟩ := stmtGetD_modify_pred_only
      (listModify A2 h (fun nd => { nd with succ := nd.succ.set 0 ar.length }))
      (ar.length) c (fun l => l ++ [h])
    obtain ⟨_, r1, r2, r3, _, _⟩ := stmtGetD_modify_succ_only A2 h c
      (fun l => l.set 0 ar.length)
    exact ⟨(p1.trans q1).trans r1, (p2.trans q2).trans r2, (p3.trans q3).trans r3⟩
  obtain ⟨a1, a2, a3, a4, a5, a6⟩ := addSuccessor_spec A3 w e
    (by rw [hlen3]; omega) (by rw [hlen3]; omega)
  rw [← hA4def] at a1 a2 a3
  have ha4 : ∀ c, ¬ c = w → (stmtGetD A4 c).succ = (stmtGetD A3 c).succ := by
    intro c hc
    rw [hA4def]
    exact a4 c hc
  have ha5 : ∀ c, ¬ c = e → (stmtGetD A4 c).pred = (stmtGetD A3 c).pred := by
    intro c hc
    rw [hA4def]
    exact a5 c hc
  have ha6 : ∀ c, (stmtGetD A4 c).type = (stmtGetD A3 c).type ∧
      (stmtGetD A4 c).block_id = (stmtGetD A3 c).block_id ∧
      (stmtGetD A4 c).block_until = (stmtGetD A3 c).block_until := by
    intro c
    rw [hA4def]
    exact a6 c
  have hlen4 : A4.length = ar.length + 1 := by rw [a1, hlen3]
  have h5pred : ∀ c, (stmtGetD A5 c).pred = (stmtGetD A4 c).pred := by
    intro c
    rw [hA5def]
    exact (stmtGetD_modify_bu_only A4 t c).1
  have h5succ : ∀ c, (stmtGetD A5 c).succ = (stmtGetD A4 c).succ := by
    intro c
    rw [hA5def]
    exact (stmtGetD_modify_bu_only A4 t c).2.1
  have h5type : ∀ c, (stmtGetD A5 c).type = (stmtGetD A4 c).type := by
    intro c
    rw [hA5def]
    exact (stmtGetD_modify_bu_only A4 t c).2.2.1
  refine ⟨A5, hsetup, ?_, ?_, ?_, ?_, ?_, ?_, ?_, ?_, ?_, ?_⟩
  · rw [hA5def, listModify_length, hlen4]
  · intro p hp hpt
    have hpw : ¬ p = w := fun hc => hwniP (hc ▸ hp)
    have hph : ¬ p = h := fun hc => hniP (hc ▸ hp)
    rw [h5succ p, ha4 p hpw, hsucc3 p hph, hlt2 p (hPr p hp), hsucc1 p,
      if_pos (List.mem_filter.mpr ⟨hp, by simp [hpt]⟩)]
  · rw [h5pred h, ha5 h (fun hc => heh hc.symm), hpred3 h (fun hc => heh hc.symm) hhne_b,
      hlt2 h hh, hpredh1]
  · rw [h5succ h, ha4 h (fun hc => hwh hc.symm), hsucc3h]
  · rw [h5type (ar.length), (ha6 (ar.length)).1, (hfields3 (ar.length)).1, hmk2]
    rfl
  · rw [h5pred (ar.length), ha5 (ar.length) hbne_e, hpred3bid]
  · rw [h5succ (ar.length), ha4 (ar.length) hbne_w, hsucc3 (ar.length) hbne_h, hmk2]
    rfl
  · rw [h5pred e, a3, hpred3e]
  · rw [h5succ w, a2, hsucc3 w hwh, hlt2 w hw, hsuccw1]
  · rw [hA5def, (stmtGetD_modify_bu_only A4 t t).2.2.2 rfl (by rw [hlen4]; omega),
      (ha6 t).2.2, (hfields3 t).2.2, hlt2 t ht, (hfields1 t).2.2]

/-- C2 witness: the theorem applied to the concrete arena with while
node 3, head 0, tail 2, exit 1, body 2. -/
theorem claim_C2_witness :
    ∃ ar5, StatementWhile.setup c2Arena 3 0 2 = some ar5 ∧
      ar5.length = c2Arena.length + 1 ∧
      (∀ p ∈ (stmtGetD c2Arena 0).pred, ¬ p = 2 →
        (stmtGetD ar5 p).succ =
          ((stmtGetD c2Arena p).succ).map (fun x => if x = 0 then 3 else x)) ∧
      (stmtGetD ar5 0).pred = ((stmtGetD c2Arena 0).pred).filter (fun p => p = 2) ∧
      (stmtGetD ar5 0).succ = [c2Arena.length, 2] ∧
      (stmtGetD ar5 c2Arena.length).type = StmtType.Break ∧
      (stmtGetD ar5 c2Arena.length).pred = [0] ∧
      (stmtGetD ar5 c2Arena.length).succ = [] ∧
      (stmtGetD ar5 1).pred = ((stmtGetD c2Arena 1).pred).erase 0 ++ [3] ∧
      (stmtGetD ar5 3).succ = (stmtGetD c2Arena 3).succ ++ [1] ∧
      (stmtGetD ar5 2).block_until = (stmtGetD c2Arena 2).block_until + 1 :=
  claim_C2 c2Arena 3 0 2 1 2 (by decide) (by decide) (by decide) (by decide)
    (by decide) (by decide) (by decide) (by decide) (by decide) (by decide)
    (by decide) (by decide) (by decide)

theorem Reach.head (adj : Nat → List Nat) {a c y : Nat}
    (hc : c ∈ adj a) (h : Reach adj c y) : Reach adj a y := by
  induction h with
  | refl => exact Reach.tail (Reach.refl a) hc
  | tail hr hm ih => exact Reach.tail ih hm

theorem lookupB2n_none_iff (m : List (Nat × Nat)) (b : Nat) :
    lookupB2n m b = none ↔ b ∉ m.map Prod.fst := by
  induction m with
  | nil => simp [lookupB2n]
  | cons p rest ih =>
    obtain ⟨k, v⟩ := p
    by_cases hk : k = b
    · subst hk
      simp [lookupB2n]
    · simp only [lookupB2n, if_neg hk, List.map_cons, List.mem_cons, ih]
      constructor
      · intro h hc
        rcases hc with hc | hc
        · exact hk hc.symm
        · exact h hc
      · intro h hc
        exact h (Or.inr hc)

theorem lookupB2n_append_left (m m' : List (Nat × Nat)) (b v : Nat)
    (h : lookupB2n m b = some v) : lookupB2n (m ++ m') b = some v := by
  induction m with
  | nil => simp [lookupB2n] at h
  | cons p rest ih =>
    obtain ⟨k, w⟩ := p
    by_cases hk : k = b
    · subst hk
      simp only [lookupB2n, if_pos rfl] at h ⊢
      exact h
    · simp only [lookupB2n, if_neg hk] at h ⊢
      exact ih h

theorem lookupB2n_append_right (m m' : List (Nat × Nat)) (b : Nat)
    (h : lookupB2n m b = none) : lookupB2n (m ++ m') b = lookupB2n m' b := by
  induction m with
  | nil => simp
  | cons p rest ih =>
    obtain ⟨k, w⟩ := p
    by_cases hk : k = b
    · subst hk
      simp [lookupB2n] at h
    · simp only [lookupB2n, if_neg hk] at h ⊢
      exact ih h

theorem lookupB2n_mem (m : List (Nat × Nat)) (b v : Nat)
    (h : lookupB2n m b = some v) : (b, v) ∈ m := by
  induction m with
  | nil => simp [lookupB2n] at h
  | cons p rest ih =>
    obtain ⟨k, w⟩ := p
    by_cases hk : k = b
    · subst hk
      simp only [lookupB2n, if_pos rfl, Option.some.injEq] at h
      cases h
      exact List.mem_cons_self _ _
    · simp only [lookupB2n, if_neg hk] at h
      exact List.mem_cons_of_mem _ (ih h)

theorem lookupB2n_of_mem_nodup (m : List (Nat × Nat)) (b v : Nat)
    (hnd : (m.map Prod.fst).Nodup) (hm : (b, v) ∈ m) : lookupB2n m b = some v := by
  induction m with
  | nil => simp at hm
  | cons p rest ih =>
    obtain ⟨k, w⟩ := p
    simp only [List.map_cons, List.nodup_cons] at hnd
    rcases List.mem_cons.mp hm with h | h
    · injection h with h1 h2
      subst h1
      subst h2
      simp [lookupB2n]
    · have hk : ¬ k = b := fun hc =>
        hnd.1 (by rw [hc]; exact List.mem_map.mpr ⟨(b, v), h, rfl⟩)
      simp only [lookupB2n, if_neg hk]
      exact ih hnd.2 h

theorem buildInv_pair_facts (n : Nat) (st : BuildSt) (inv : BuildInv n st)
    (k v : Nat) (h : (k, v) ∈ st.b2n) :
    v < st.arena.length ∧ (stmtGetD st.arena v).block_id = k := by
  rw [inv.enum] at h
  obtain ⟨j, hj, hje⟩ := List.mem_map.mp h
  injection hje with h1 h2
  subst h2
  exact ⟨List.mem_range.mp hj, h1⟩

theorem succFormula_transport (bl : BlockList) (st st' : BuildSt) (j : Nat)
    (hsf : SuccFormula bl st j)
    (hsucc : (stmtGetD st'.arena j).succ = (stmtGetD st.arena j).succ)
    (hbid : (stmtGetD st'.arena j).block_id = (stmtGetD st.arena j).block_id)
    (hlk : ∀ k v, lookupB2n st.b2n k = some v → lookupB2n st'.b2n k = some v) :
    SuccFormula bl st' j := by
  obtain ⟨h1, h2⟩ := hsf
  constructor
  · rw [hsucc, hbid, h1]
    refine List.map_congr_left ?_
    intro s hs
    obtain ⟨v, hv⟩ := Option.isSome_iff_exists.mp (h2 s hs)
    rw [hv, hlk s v hv]
  · intro s hs
    rw [hbid] at hs
    obtain ⟨v, hv⟩ := Option.isSome_iff_exists.mp (h2 s hs)
    rw [hlk s v hv]
    rfl

theorem keys_toFinset_subset_append (m r : List (Nat × Nat)) :
    (m.map Prod.fst).toFinset ⊆ ((m ++ r).map Prod.fst).toFinset := by
  rw [List.map_append, List.toFinset_append]
  exact Finset.subset_union_left

theorem card_sdiff_le_of_subset (n : Nat) (A B : Finset Nat) (h : A ⊆ B) :
    (Finset.range n \ B).card ≤ (Finset.range n \ A).card :=
  Finset.card_le_card (Finset.sdiff_subset_sdiff (Finset.Subset.refl _) h)

theorem buildInv_addSucc (n : Nat) (st : BuildSt) (inv : BuildInv n st) (x y : Nat)
    (hx : x < st.arena.length) (hy : y < st.arena.length) :
    BuildInv n ⟨addSuccessor st.arena x y, st.b2n⟩ := by
  obtain ⟨a1, a2, a3, a4, a5, a6⟩ := addSuccessor_spec st.arena x y hx hy
  refine ⟨?_, inv.keysnd, inv.keyslt, ?_⟩
  · show st.b2n = (List.range (addSuccessor st.arena x y).length).map
      (fun j => ((stmtGetD (addSuccessor st.arena x y) j).block_id, j))
    rw [a1, inv.enum]
    refine List.map_congr_left ?_
    intro j _
    rw [(a6 j).2.1]
  · intro j hj
    rw [show (⟨addSuccessor st.arena x y, st.b2n⟩ : BuildSt).arena =
      addSuccessor st.arena x y from rfl] at hj ⊢
    rw [a1] at hj
    rw [(a6 j).1]
    exact inv.allblock j hj

theorem goSuccs_spec (bl : BlockList) (n : Nat) (rec : Nat → BuildSt → Nat × BuildSt)
    (bound : Nat) (hrec : NodeSpec bl n rec bound) :
    ∀ (slist : List Nat) (nid : Nat) (st1 : BuildSt),
      BuildInv n st1 →
      nid < st1.arena.length →
      (∀ s ∈ slist, s < n) →
      (Finset.range n \ keysF st1).card < bound →
      BuildInv n (goSuccs rec nid slist st1) ∧
      (∃ rest, (goSuccs rec nid slist st1).b2n = st1.b2n ++ rest) ∧
      (∀ k v, lookupB2n st1.b2n k = some v →
        lookupB2n (goSuccs rec nid slist st1).b2n k = some v) ∧
      (∀ j, j < st1.arena.length → ¬ j = nid →
        (stmtGetD (goSuccs rec nid slist st1).arena j).succ = (stmtGetD st1.arena j).succ) ∧
      (∀ j, j < st1.arena.length →
        (stmtGetD (goSuccs rec nid slist st1).arena j).block_id =
          (stmtGetD st1.arena j).block_id ∧
        (stmtGetD (goSuccs rec nid slist st1).arena j).block_until =
          (stmtGetD st1.arena j).block_until) ∧
      ((stmtGetD (goSuccs rec nid slist st1).arena nid).succ =
        (stmtGetD st1.arena nid).succ ++
          slist.map (fun s => (lookupB2n (goSuccs rec nid slist st1).b2n s).getD 0)) ∧
      (∀ s ∈ slist, (lookupB2n (goSuccs rec nid slist st1).b2n s).isSome = true) ∧
      (∀ k v, lookupB2n (goSuccs rec nid slist st1).b2n k = some v →
        lookupB2n st1.b2n k = none →
        ∀ s ∈ bl.succOf k, (lookupB2n (goSuccs rec nid slist st1).b2n s).isSome = true) ∧
      (∀ j, st1.arena.length ≤ j → j < (goSuccs rec nid slist st1).arena.length →
        SuccFormula bl (goSuccs rec nid slist st1) j) ∧
      (∀ p ∈ (goSuccs rec nid slist st1).b2n, p ∉ st1.b2n →
        ∃ s ∈ slist, Reach bl.succOf s p.1) ∧
      st1.arena.length ≤ (goSuccs rec nid slist st1).arena.length := by
  intro slist
  induction slist with
  | nil =>
    intro nid st1 inv1 hnid _ _
    refine ⟨inv1, ⟨[], by simp [goSuccs]⟩, fun k v h => h, fun j _ _ => rfl,
      fun j _ => ⟨rfl, rfl⟩, by simp [goSuccs], ?_, ?_, ?_, ?_, Nat.le_refl _⟩
    · intro s hs; simp at hs
    · intro k v hk hnone s hs
      simp only [goSuccs] at hk
      rw [hk] at hnone
      cases hnone
    · intro j hj1 hj2
      simp only [goSuccs] at hj2
      omega
    · intro p hp hnp
      simp only [goSuccs] at hp
      exact absurd hp hnp
  | cons s rest ih =>
    intro nid st1 inv1 hnid hsl hcard
    cases hlk : lookupB2n st1.b2n s with
    | some m =>
      have heq : goSuccs rec nid (s :: rest) st1 =
          goSuccs rec nid rest ⟨addSuccessor st1.arena nid m, st1.b2n⟩ := by
        simp only [goSuccs, hlk]
      have hm : m < st1.arena.length :=
        (buildInv_pair_facts n st1 inv1 s m (lookupB2n_mem _ _ _ hlk)).1
      obtain ⟨a1, a2, a3, a4, a5, a6⟩ := addSuccessor_spec st1.arena nid m hnid hm
      have inv2 : BuildInv n ⟨addSuccessor st1.arena nid m, st1.b2n⟩ :=
        buildInv_addSucc n st1 inv1 nid m hnid hm
      obtain ⟨i1, i2, i3, i4, i5, i6, i7, i8, i9, i10, i11⟩ :=
        ih nid ⟨addSuccessor st1.arena nid m, st1.b2n⟩ inv2 (by
          show nid < (addSuccessor st1.arena nid m).length
          rw [a1]; exact hnid)
          (fun x hx => hsl x (List.mem_cons_of_mem s hx)) hcard
      rw [heq]
      have hlkfin : lookupB2n (goSuccs rec nid rest
          ⟨addSuccessor st1.arena nid m, st1.b2n⟩).b2n s = some m := i3 s m hlk
      refine ⟨i1, i2, i3, ?_, ?_, ?_, ?_, i8, ?_, ?_, ?_⟩
      · intro j hj hjn
        rw [i4 j (by rw [show (⟨addSuccessor st1.arena nid m, st1.b2n⟩ : BuildSt).arena =
            addSuccessor st1.arena nid m from rfl, a1]; exact hj) hjn]
        exact a4 j hjn
      · intro j hj
        obtain ⟨k1, k2⟩ := i5 j (by
          show j < (addSuccessor st1.arena nid m).length
          rw [a1]; exact hj)
        exact ⟨k1.trans (a6 j).2.1, k2.trans (a6 j).2.2⟩
      · rw [i6]
        show (stmtGetD (addSuccessor st1.arena nid m) nid).succ ++ _ = _
        rw [a2, List.map_cons, hlkfin]
        simp
      · intro x hx
        rcases List.mem_cons.mp hx with hxs | hxr
        · subst hxs
          rw [hlkfin]
          rfl
        · exact i7 x hxr
      · intro j hj1 hj2
        refine i9 j ?_ hj2
        show (addSuccessor st1.arena nid m).length ≤ j
        rw [a1]; exact hj1
      · intro p hp hnp
        obtain ⟨x, hx, hr⟩ := i10 p hp hnp
        exact ⟨x, List.mem_cons_of_mem s hx, hr⟩
      · calc st1.arena.length = (addSuccessor st1.arena nid m).length := a1.symm
          _ ≤ _ := i11
    | none =>
      have heq : goSuccs rec nid (s :: rest) st1 =
          goSuccs rec nid rest
            ⟨addSuccessor (rec s st1).2.arena nid (rec s st1).1, (rec s st1).2.b2n⟩ := by
        simp only [goSuccs, hlk]
      obtain ⟨n1, n2, n3, n4, n5, n6, n7, n8, n9, n10⟩ :=
        hrec s st1 (hsl s (List.mem_cons_self s rest)) hlk inv1 hcard
      have hnid2 : nid < (rec s st1).2.arena.length := Nat.lt_trans hnid n10
      have hids2 : (rec s st1).1 < (rec s st1).2.arena.length := by rw [n1]; exact n10
      obtain ⟨a1, a2, a3, a4, a5, a6⟩ :=
        addSuccessor_spec (rec s st1).2.arena nid (rec s st1).1 hnid2 hids2
      have inv2 : BuildInv n ⟨addSuccessor (rec s st1).2.arena nid (rec s st1).1,
          (rec s st1).2.b2n⟩ :=
        buildInv_addSucc n (rec s st1).2 n2 nid (rec s st1).1 hnid2 hids2
      have hcard2 : (Finset.range n \ keysF
          ⟨addSuccessor (rec s st1).2.arena nid (rec s st1).1, (rec s st1).2.b2n⟩).card <
          bound := by
        obtain ⟨r1, hr1⟩ := n3
        refine Nat.lt_of_le_of_lt (card_sdiff_le_of_subset n _ _ ?_) hcard
        show keysF st1 ⊆ keysF (rec s st1).2
        unfold keysF
        rw [hr1]
        exact keys_toFinset_subset_append _ _
      obtain ⟨i1, i2, i3, i4, i5, i6, i7, i8, i9, i10, i11⟩ :=
        ih nid ⟨addSuccessor (rec s st1).2.arena nid (rec s st1).1, (rec s st1).2.b2n⟩
          inv2 (by
            show nid < (addSuccessor (rec s st1).2.arena nid (rec s st1).1).length
            rw [a1]; exact hnid2)
          (fun x hx => hsl x (List.mem_cons_of_mem s hx)) hcard2
      rw [heq]
      have hlkG : lookupB2n (goSuccs rec nid rest
          ⟨addSuccessor (rec s st1).2.arena nid (rec s st1).1, (rec s st1).2.b2n⟩).b2n s =
          some st1.arena.length := i3 s st1.arena.length n5
      refine ⟨i1, ?_, ?_, ?_, ?_, ?_, ?_, ?_, ?_, ?_, ?_⟩
      · obtain ⟨r1, hr1⟩ := n3
        obtain ⟨r2, hr2⟩ := i2
        exact ⟨r1 ++ r2, by rw [hr2, show (⟨addSuccessor (rec s st1).2.arena nid
          (rec s st1).1, (rec s st1).2.b2n⟩ : BuildSt).b2n = (rec s st1).2.b2n from rfl,
          hr1, List.append_assoc]⟩
      · intro k v h
        exact i3 k v (n4 k v h)
      · intro j hj hjn
        rw [i4 j (by show j < (addSuccessor (rec s st1).2.arena nid (rec s st1).1).length
                     rw [a1]; exact Nat.lt_trans hj n10) hjn]
        show (stmtGetD (addSuccessor (rec s st1).2.arena nid (rec s st1).1) j).succ = _
        rw [a4 j hjn, (n6 j hj).1]
      · intro j hj
        obtain ⟨k1, k2⟩ := i5 j (by
          show j < (addSuccessor (rec s st1).2.arena nid (rec s st1).1).length
          rw [a1]; exact Nat.lt_trans hj n10)
        refine ⟨?_, ?_⟩
        · rw [k1]
          show (stmtGetD (addSuccessor (rec s st1).2.arena nid (rec s st1).1) j).block_id = _
          rw [(a6 j).2.1, (n6 j hj).2.1]
        · rw [k2]
          show (stmtGetD (addSuccessor (rec s st1).2.arena nid (rec s st1).1) j).block_until = _
          rw [(a6 j).2.2, (n6 j hj).2.2]
      · rw [i6]
        show (stmtGetD (addSuccessor (rec s st1).2.arena nid (rec s st1).1) nid).succ ++ _ = _
        rw [a2, (n6 nid hnid).1, List.map_cons, hlkG, n1]
        simp
      · intro x hx
        rcases List.mem_cons.mp hx with hxs | hxr
        · subst hxs
          rw [hlkG]
          rfl
        · exact i7 x hxr
      · intro k v hk hnone
        cases hlk2 : lookupB2n (rec s st1).2.b2n k with
        | none => exact i8 k v hk hlk2
        | some w =>
          intro x hx
          obtain ⟨u, hu⟩ := Option.isSome_iff_exists.mp (n7 k w hlk2 hnone x hx)
          rw [i3 x u hu]
          rfl
      · intro j hj1 hj2
        by_cases hjR : j < (rec s st1).2.arena.length
        · have hsfR := n8 j hj1 hjR
          have hsf2 : SuccFormula bl
              ⟨addSuccessor (rec s st1).2.arena nid (rec s st1).1, (rec s st1).2.b2n⟩ j := by
            refine succFormula_transport bl (rec s st1).2 _ j hsfR ?_ ?_ (fun k v h => h)
            · show (stmtGetD (addSuccessor (rec s st1).2.arena nid (rec s st1).1) j).succ = _
              exact a4 j (by omega)
            · show (stmtGetD (addSuccessor (rec s st1).2.arena nid (rec s st1).1) j).block_id = _
              exact (a6 j).2.1
          refine succFormula_transport bl _ _ j hsf2 ?_ ?_ i3
          · exact i4 j (by
              show j < (addSuccessor (rec s st1).2.arena nid (rec s st1).1).length
              rw [a1]; exact hjR) (by omega)
          · exact (i5 j (by
              show j < (addSuccessor (rec s st1).2.arena nid (rec s st1).1).length
              rw [a1]; exact hjR)).1
        · refine i9 j ?_ hj2
          show (addSuccessor (rec s st1).2.arena nid (rec s st1).1).length ≤ j
          rw [a1]; omega
      · intro p hp hnp
        by_cases hp2 : p ∈ (rec s st1).2.b2n
        · exact ⟨s, List.mem_cons_self s rest, n9 p hp2 hnp⟩
        · obtain ⟨x, hx, hr⟩ := i10 p hp hp2
          exact ⟨x, List.mem_cons_of_mem s hx, hr⟩
      · calc st1.arena.length ≤ (rec s st1).2.arena.length := Nat.le_of_lt n10
          _ = (addSuccessor (rec s st1).2.arena nid (rec s st1).1).length := a1.symm
          _ ≤ _ := i11

theorem to_statements_internal_spec (bl : BlockList) (n : Nat)
    (hcl : ∀ i, i < n → ∀ s ∈ bl.succOf i, s < n) :
    ∀ fuel, NodeSpec bl n (to_statements_internal bl fuel) fuel := by
  intro fuel
  induction fuel with
  | zero =>
    intro b st hb hlook inv hcard
    exact absurd hcard (Nat.not_lt_zero _)
  | succ fuel iha =>
    intro b st hb hlook inv hcard
    have hget1 : ∀ j, j < st.arena.length →
        stmtGetD (st.arena ++ [mkStmtBlock b]) j = stmtGetD st.arena j :=
      fun j hj => stmtGetD_append_lt _ _ _ hj
    have hgetN : stmtGetD (st.arena ++ [mkStmtBlock b]) st.arena.length = mkStmtBlock b :=
      stmtGetD_append_len _ _
    have hbk : b ∉ st.b2n.map Prod.fst := (lookupB2n_none_iff _ _).mp hlook
    have inv1 : BuildInv n ⟨st.arena ++ [mkStmtBlock b],
        st.b2n ++ [(b, st.arena.length)]⟩ := by
      refine ⟨?_, ?_, ?_, ?_⟩
      · show st.b2n ++ [(b, st.arena.length)] =
          (List.range (st.arena ++ [mkStmtBlock b]).length).map
            (fun j => ((stmtGetD (st.arena ++ [mkStmtBlock b]) j).block_id, j))
        rw [List.length_append, List.length_singleton, List.range_succ, List.map_append,
          inv.enum]
        congr 1
        · refine (List.map_congr_left ?_).symm
          intro j hj
          rw [hget1 j (List.mem_range.mp hj)]
        · simp only [List.map_cons, List.map_nil]
          rw [hgetN]
          rfl
      · show ((st.b2n ++ [(b, st.arena.length)]).map Prod.fst).Nodup
        rw [List.map_append]
        simp only [List.map_cons, List.map_nil]
        rw [List.nodup_append]
        exact ⟨inv.keysnd, List.nodup_singleton b, by
          intro a ha hb2
          rw [List.mem_singleton] at hb2
          subst hb2
          exact hbk ha⟩
      · intro p hp
        rcases List.mem_append.mp hp with h | h
        · exact inv.keyslt p h
        · rw [List.mem_singleton] at h
          subst h
          exact hb
      · intro j hj
        show (stmtGetD (st.arena ++ [mkStmtBlock b]) j).type = StmtType.Block
        rw [List.length_append, List.length_singleton] at hj
        by_cases hjl : j < st.arena.length
        · rw [hget1 j hjl]
          exact inv.allblock j hjl
        · have : j = st.arena.length := by omega
          subst this
          rw [hgetN]
          rfl
    have hkeys1 : keysF ⟨st.arena ++ [mkStmtBlock b],
        st.b2n ++ [(b, st.arena.length)]⟩ = insert b (keysF st) := by
      unfold keysF
      show ((st.b2n ++ [(b, st.arena.length)]).map Prod.fst).toFinset = _
      rw [List.map_append, List.toFinset_append]
      simp [Finset.union_comm, Finset.insert_eq]
    have hcard1 : (Finset.range n \ keysF ⟨st.arena ++ [mkStmtBlock b],
        st.b2n ++ [(b, st.arena.length)]⟩).card < fuel := by
      rw [hkeys1]
      have hss : Finset.range n \ insert b (keysF st) ⊂ Finset.range n \ keysF st := by
        refine Finset.ssubset_iff_of_subset
          (Finset.sdiff_subset_sdiff (Finset.Subset.refl _) (Finset.subset_insert _ _))
          |>.mpr ?_
        refine ⟨b, Finset.mem_sdiff.mpr ⟨Finset.mem_range.mpr hb, ?_⟩, ?_⟩
        · intro hc
          exact hbk (List.mem_toFinset.mp hc)
        · intro hc
          exact (Finset.mem_sdiff.mp hc).2 (Finset.mem_insert_self _ _)
      have := Finset.card_lt_card hss
      omega
    obtain ⟨g1, g2, g3, g4, g5, g6, g7, g8, g9, g10, g11⟩ :=
      goSuccs_spec bl n (to_statements_internal bl fuel) fuel iha (bl.succOf b)
        st.arena.length ⟨st.arena ++ [mkStmtBlock b], st.b2n ++ [(b, st.arena.length)]⟩
        inv1 (by simp) (fun x hx => hcl b hb x hx) hcard1
    have hunf1 : (to_statements_internal bl (fuel + 1) b st).1 = st.arena.length := rfl
    have hunf2 : (to_statements_internal bl (fuel + 1) b st).2 =
        goSuccs (to_statements_internal bl fuel) st.arena.length (bl.succOf b)
          ⟨st.arena ++ [mkStmtBlock b], st.b2n ++ [(b, st.arena.length)]⟩ := rfl
    rw [hunf1, hunf2]
    refine ⟨rfl, g1, ?_, ?_, ?_, ?_, ?_, ?_, ?_, ?_⟩
    · obtain ⟨r, hr⟩ := g2
      exact ⟨(b, st.arena.length) :: r, by rw [show ((b, st.arena.length) :: r) =
        [(b, st.arena.length)] ++ r from rfl, ← List.append_assoc]; exact hr⟩
    · intro k v h
      exact g3 k v (lookupB2n_append_left _ _ _ _ h)
    · refine g3 b st.arena.length ?_
      rw [lookupB2n_append_right _ _ _ hlook]
      simp [lookupB2n]
    · intro j hj
      have hj1 : j < (st.arena ++ [mkStmtBlock b]).length := by
        rw [List.length_append, List.length_singleton]; omega
      refine ⟨?_, ?_, ?_⟩
      · rw [g4 j hj1 (by omega)]
        show (stmtGetD (st.arena ++ [mkStmtBlock b]) j).succ = _
        rw [hget1 j hj]
      · rw [(g5 j hj1).1]
        show (stmtGetD (st.arena ++ [mkStmtBlock b]) j).block_id = _
        rw [hget1 j hj]
      · rw [(g5 j hj1).2]
        show (stmtGetD (st.arena ++ [mkStmtBlock b]) j).block_until = _
        rw [hget1 j hj]
    · intro k v hk hnone
      cases hlk1 : lookupB2n (st.b2n ++ [(b, st.arena.length)]) k with
      | none => exact g8 k v hk hlk1
      | some w =>
        rw [lookupB2n_append_right _ _ _ hnone] at hlk1
        have hkb : b = k := by
          by_cases hc : b = k
          · exact hc
          · simp [lookupB2n, hc] at hlk1
        subst hkb
        exact g7
    · intro j hj1 hj2
      by_cases hjN : j = st.arena.length
      · subst hjN
        have hbid : (stmtGetD (goSuccs (to_statements_internal bl fuel) st.arena.length
            (bl.succOf b) ⟨st.arena ++ [mkStmtBlock b],
              st.b2n ++ [(b, st.arena.length)]⟩).arena st.arena.length).block_id = b := by
          rw [(g5 st.arena.length (by simp)).1]
          show (stmtGetD (st.arena ++ [mkStmtBlock b]) st.arena.length).block_id = b
          rw [hgetN]
          rfl
        constructor
        · rw [g6, hbid]
          show (stmtGetD (st.arena ++ [mkStmtBlock b]) st.arena.length).succ ++ _ = _
          rw [hgetN]
          rfl
        · intro x hx
          rw [hbid] at hx
          exact g7 x hx
      · refine g9 j (by simp; omega) hj2
    · intro p hp hnp
      by_cases hp1 : p ∈ st.b2n ++ [(b, st.arena.length)]
      · rcases List.mem_append.mp hp1 with h | h
        · exact absurd h hnp
        · rw [List.mem_singleton] at h
          subst h
          exact Reach.refl b
      · obtain ⟨x, hx, hr⟩ := g10 p hp hp1
        exact Reach.head _ hx hr
    · refine Nat.lt_of_lt_of_le ?_ g11
      simp

theorem buildInv_push (n b : Nat) (st : BuildSt) (hb : b < n)
    (hlook : lookupB2n st.b2n b = none) (inv : BuildInv n st) :
    BuildInv n ⟨st.arena ++ [mkStmtBlock b], st.b2n ++ [(b, st.arena.length)]⟩ := by
  have hget1 : ∀ j, j < st.arena.length →
      stmtGetD (st.arena ++ [mkStmtBlock b]) j = stmtGetD st.arena j :=
    fun j hj => stmtGetD_append_lt _ _ _ hj
  have hgetN : stmtGetD (st.arena ++ [mkStmtBlock b]) st.arena.length = mkStmtBlock b :=
    stmtGetD_append_len _ _
  have hbk : b ∉ st.b2n.map Prod.fst := (lookupB2n_none_iff _ _).mp hlook
  refine ⟨?_, ?_, ?_, ?_⟩
  · show st.b2n ++ [(b, st.arena.length)] =
      (List.range (st.arena ++ [mkStmtBlock b]).length).map
        (fun j => ((stmtGetD (st.arena ++ [mkStmtBlock b]) j).block_id, j))
    rw [List.length_append, List.length_singleton, List.range_succ, List.map_append,
      inv.enum]
    congr 1
    · refine (List.map_congr_left ?_).symm
      intro j hj
      rw [hget1 j (List.mem_range.mp hj)]
    · simp only [List.map_cons, List.map_nil]
      rw [hgetN]
      rfl
  · show ((st.b2n ++ [(b, st.arena.length)]).map Prod.fst).Nodup
    rw [List.map_append]
    simp only [List.map_cons, List.map_nil]
    rw [List.nodup_append]
    exact ⟨inv.keysnd, List.nodup_singleton b, by
      intro a ha hb2
      rw [List.mem_singleton] at hb2
      subst hb2
      exact hbk ha⟩
  · intro p hp
    rcases List.mem_append.mp hp with h | h
    · exact inv.keyslt p h
    · rw [List.mem_singleton] at h
      subst h
      exact hb
  · intro j hj
    show (stmtGetD (st.arena ++ [mkStmtBlock b]) j).type = StmtType.Block
    rw [List.length_append, List.length_singleton] at hj
    by_cases hjl : j < st.arena.length
    · rw [hget1 j hjl]
      exact inv.allblock j hjl
    · have : j = st.arena.length := by omega
      subst this
      rw [hgetN]
      rfl

theorem card_push (n b : Nat) (st : BuildSt) (hb : b < n)
    (hlook : lookupB2n st.b2n b = none) :
    (Finset.range n \ keysF ⟨st.arena ++ [mkStmtBlock b],
      st.b2n ++ [(b, st.arena.length)]⟩).card < (Finset.range n \ keysF st).card := by
  have hbk : b ∉ st.b2n.map Prod.fst := (lookupB2n_none_iff _ _).mp hlook
  have hkeys1 : keysF ⟨st.arena ++ [mkStmtBlock b],
      st.b2n ++ [(b, st.arena.length)]⟩ = insert b (keysF st) := by
    unfold keysF
    show ((st.b2n ++ [(b, st.arena.length)]).map Prod.fst).toFinset = _
    rw [List.map_append, List.toFinset_append]
    simp [Finset.union_comm, Finset.insert_eq]
  rw [hkeys1]
  refine Finset.card_lt_card ?_
  refine Finset.ssubset_iff_of_subset
    (Finset.sdiff_subset_sdiff (Finset.Subset.refl _) (Finset.subset_insert _ _))
    |>.mpr ?_
  refine ⟨b, Finset.mem_sdiff.mpr ⟨Finset.mem_range.mpr hb, ?_⟩, ?_⟩
  · intro hc
    exact hbk (List.mem_toFinset.mp hc)
  · intro hc
    exact (Finset.mem_sdiff.mp hc).2 (Finset.mem_insert_self _ _)

theorem goSuccs_congr (bl : BlockList) (n : Nat)
    (rec1 rec2 : Nat → BuildSt → Nat × BuildSt) (bound1 bound2 : Nat)
    (h1 : NodeSpec bl n rec1 bound1)
    (hagree : ∀ b st, b < n → lookupB2n st.b2n b = none → BuildInv n st →
      (Finset.range n \ keysF st).card < bound1 →
      (Finset.range n \ keysF st).card < bound2 → rec1 b st = rec2 b st) :
    ∀ (slist : List Nat) (nid : Nat) (st1 : BuildSt), BuildInv n st1 →
      nid < st1.arena.length → (∀ s ∈ slist, s < n) →
      (Finset.range n \ keysF st1).card < bound1 →
      (Finset.range n \ keysF st1).card < bound2 →
      goSuccs rec1 nid slist st1 = goSuccs rec2 nid slist st1 := by
  intro slist
  induction slist with
  | nil => intro nid st1 _ _ _ _ _; rfl
  | cons s rest ih =>
    intro nid st1 inv1 hnid hsl hc1 hc2
    cases hlk : lookupB2n st1.b2n s with
    | some m =>
      have hm : m < st1.arena.length :=
        (buildInv_pair_facts n st1 inv1 s m (lookupB2n_mem _ _ _ hlk)).1
      have heq1 : goSuccs rec1 nid (s :: rest) st1 =
          goSuccs rec1 nid rest ⟨addSuccessor st1.arena nid m, st1.b2n⟩ := by
        simp only [goSuccs, hlk]
      have heq2 : goSuccs rec2 nid (s :: rest) st1 =
          goSuccs rec2 nid rest ⟨addSuccessor st1.arena nid m, st1.b2n⟩ := by
        simp only [goSuccs, hlk]
      rw [heq1, heq2]
      refine ih nid _ (buildInv_addSucc n st1 inv1 nid m hnid hm) ?_
        (fun x hx => hsl x (List.mem_cons_of_mem s hx)) hc1 hc2
      show nid < (addSuccessor st1.arena nid m).length
      rw [(addSuccessor_spec st1.arena nid m hnid hm).1]
      exact hnid
    | none =>
      have hsn : s < n := hsl s (List.mem_cons_self s rest)
      have hragree : rec1 s st1 = rec2 s st1 := hagree s st1 hsn hlk inv1 hc1 hc2
      obtain ⟨n1, n2, n3, n4, n5, n6, n7, n8, n9, n10⟩ := h1 s st1 hsn hlk inv1 hc1
      have heq1 : goSuccs rec1 nid (s :: rest) st1 =
          goSuccs rec1 nid rest
            ⟨addSuccessor (rec1 s st1).2.arena nid (rec1 s st1).1, (rec1 s st1).2.b2n⟩ := by
        simp only [goSuccs, hlk]
      have heq2 : goSuccs rec2 nid (s :: rest) st1 =
          goSuccs rec2 nid rest
            ⟨addSuccessor (rec2 s st1).2.arena nid (rec2 s st1).1, (rec2 s st1).2.b2n⟩ := by
        simp only [goSuccs, hlk]
      rw [heq1, heq2, ← hragree]
      have hnid2 : nid < (rec1 s st1).2.arena.length := Nat.lt_trans hnid n10
      have hids2 : (rec1 s st1).1 < (rec1 s st1).2.arena.length := by rw [n1]; exact n10
      have hmono : keysF st1 ⊆ keysF (rec1 s st1).2 := by
        obtain ⟨r1, hr1⟩ := n3
        unfold keysF
        rw [hr1]
        exact keys_toFinset_subset_append _ _
      have hcc := card_sdiff_le_of_subset n _ _ hmono
      refine ih nid _ (buildInv_addSucc n (rec1 s st1).2 n2 nid (rec1 s st1).1 hnid2 hids2)
        ?_ (fun x hx => hsl x (List.mem_cons_of_mem s hx))
        (by show (Finset.range n \ keysF (rec1 s st1).2).card < bound1; omega)
        (by show (Finset.range n \ keysF (rec1 s st1).2).card < bound2; omega)
      show nid < (addSuccessor (rec1 s st1).2.arena nid (rec1 s st1).1).length
      rw [(addSuccessor_spec (rec1 s st1).2.arena nid (rec1 s st1).1 hnid2 hids2).1]
      exact hnid2

theorem to_statements_internal_fuel_irrel (bl : BlockList) (n : Nat)
    (hcl : ∀ i, i < n → ∀ s ∈ bl.succOf i, s < n) :
    ∀ f1 f2 b st, b < n → lookupB2n st.b2n b = none → BuildInv n st →
      (Finset.range n \ keysF st).card < f1 →
      (Finset.range n \ keysF st).card < f2 →
      to_statements_internal bl f1 b st = to_statements_internal bl f2 b st := by
  intro f1
  induction f1 with
  | zero =>
    intro f2 b st _ _ _ hc1 _
    exact absurd hc1 (Nat.not_lt_zero _)
  | succ f1 ih =>
    intro f2 b st hb hlook inv hc1 hc2
    cases f2 with
    | zero => exact absurd hc2 (Nat.not_lt_zero _)
    | succ g =>
      show (st.arena.length, goSuccs (to_statements_internal bl f1) st.arena.length
          (bl.succOf b) ⟨st.arena ++ [mkStmtBlock b], st.b2n ++ [(b, st.arena.length)]⟩) =
        (st.arena.length, goSuccs (to_statements_internal bl g) st.arena.length
          (bl.succOf b) ⟨st.arena ++ [mkStmtBlock b], st.b2n ++ [(b, st.arena.length)]⟩)
      have hcp := card_push n b st hb hlook
      have had1 : (Finset.range n \ keysF ⟨st.arena ++ [mkStmtBlock b],
          st.b2n ++ [(b, st.arena.length)]⟩).card < f1 := by omega
      have had2 : (Finset.range n \ keysF ⟨st.arena ++ [mkStmtBlock b],
          st.b2n ++ [(b, st.arena.length)]⟩).card < g := by omega
      refine congrArg _ (goSuccs_congr bl n (to_statements_internal bl f1)
        (to_statements_internal bl g) f1 g (to_statements_internal_spec bl n hcl f1)
        (fun b' st' hb' hl' inv' hcc1 hcc2 => ih g b' st' hb' hl' inv' hcc1 hcc2)
        (bl.succOf b) st.arena.length _
        (buildInv_push n b st hb hlook inv) (by simp)
        (fun x hx => hcl b hb x hx) had1 had2)

theorem map_range_getD_block_id (l : List StmtNode) :
    (List.range l.length).map (fun j => (stmtGetD l j).block_id) =
      l.map (fun nd => nd.block_id) := by
  induction l with
  | nil => rfl
  | cons a l ih =>
    rw [List.length_cons, List.range_succ_eq_map, List.map_cons, List.map_map]
    congr 1

theorem buildInv_start (n : Nat) : BuildInv n ⟨[], []⟩ := by
  refine ⟨rfl, List.nodup_nil, ?_, ?_⟩
  · intro p hp
    exact absurd hp (List.not_mem_nil p)
  · intro j hj
    simp at hj

theorem card_start (n : Nat) : (Finset.range n \ keysF ⟨[], []⟩).card = n := by
  show (Finset.range n \ (([] : List (Nat × Nat)).map Prod.fst).toFinset).card = n
  simp

/-- C8. For every block list whose successor lists stay in range
(cyclic graphs included), `to_statements` terminates (adding fuel
beyond the block count changes nothing), and the resulting arena holds
exactly one `StatementBlock` per block reachable from the entry: every
node is a block statement, the recorded block ids are pairwise
distinct (each block's node is registered in `block2node` before its
successors are recursed into), and a block id occurs exactly once when
the block is reachable from the entry and never otherwise. -/
theorem claim_C8 (bl : BlockList) (entry : Nat)
    (hentry : entry < bl.blocks.length)
    (hcl : ∀ i, i < bl.blocks.length → ∀ s ∈ bl.succOf i, s < bl.blocks.length) :
    (∀ extra, to_statements_internal bl (bl.blocks.length + 1 + extra) entry ⟨[], []⟩ =
      to_statements bl entry) ∧
    (∀ j, j < (to_statements bl entry).2.arena.length →
      (stmtGetD (to_statements bl entry).2.arena j).type = StmtType.Block) ∧
    ((to_statements bl entry).2.arena.map (fun nd => nd.block_id)).Nodup ∧
    (∀ b, (((to_statements bl entry).2.arena.map (fun nd => nd.block_id)).count b = 1 ↔
        Reach bl.succOf entry b) ∧
      (((to_statements bl entry).2.arena.map (fun nd => nd.block_id)).count b = 0 ↔
        ¬ Reach bl.succOf entry b)) := by
  have hcard0 : ∀ m, (Finset.range bl.blocks.length \ keysF ⟨[], []⟩).card <
      bl.blocks.length + 1 + m := by
    intro m
    rw [card_start]
    omega
  obtain ⟨m1, m2, m3, m4, m5, m6, m7, m8, m9, m10⟩ :=
    to_statements_internal_spec bl bl.blocks.length hcl (bl.blocks.length + 1) entry
      ⟨[], []⟩ hentry rfl (buildInv_start _) (by rw [card_start]; omega)
  have hkeys_eq : (to_statements bl entry).2.b2n.map Prod.fst =
      (to_statements bl entry).2.arena.map (fun nd => nd.block_id) := by
    rw [show (to_statements bl entry).2.b2n =
      (List.range (to_statements bl entry).2.arena.length).map
        (fun j => ((stmtGetD (to_statements bl entry).2.arena j).block_id, j)) from m2.enum,
      List.map_map]
    rw [show (Prod.fst ∘ fun j => ((stmtGetD (to_statements bl entry).2.arena j).block_id, j))
      = fun j => (stmtGetD (to_statements bl entry).2.arena j).block_id from rfl]
    exact map_range_getD_block_id _
  have hnd : ((to_statements bl entry).2.arena.map (fun nd => nd.block_id)).Nodup := by
    rw [← hkeys_eq]
    exact m2.keysnd
  have hreach_some : ∀ y, Reach bl.succOf entry y →
      (lookupB2n (to_statements bl entry).2.b2n y).isSome = true := by
    intro y hy
    have hts : to_statements bl entry =
        to_statements_internal bl (bl.blocks.length + 1) entry ⟨[], []⟩ := rfl
    induction hy with
    | refl => rw [hts, m5]; rfl
    | tail hr hm iha =>
      obtain ⟨v, hv⟩ := Option.isSome_iff_exists.mp iha
      exact m7 _ v hv rfl _ hm
  have hmem_iff : ∀ b, b ∈ (to_statements bl entry).2.arena.map (fun nd => nd.block_id) ↔
      Reach bl.succOf entry b := by
    intro b
    rw [← hkeys_eq]
    constructor
    · intro h
      obtain ⟨p, hp, hpe⟩ := List.mem_map.mp h
      rw [← hpe]
      exact m9 p hp (List.not_mem_nil p)
    · intro h
      obtain ⟨v, hv⟩ := Option.isSome_iff_exists.mp (hreach_some b h)
      exact List.mem_map.mpr ⟨(b, v), lookupB2n_mem _ _ _ hv, rfl⟩
  refine ⟨?_, m2.allblock, hnd, ?_⟩
  · intro extra
    exact to_statements_internal_fuel_irrel bl bl.blocks.length hcl
      (bl.blocks.length + 1 + extra) (bl.blocks.length + 1) entry ⟨[], []⟩ hentry rfl
      (buildInv_start _) (hcard0 extra) (by rw [card_start]; omega)
  · intro b
    constructor
    · constructor
      · intro h
        refine (hmem_iff b).mp ?_
        have : 0 < ((to_statements bl entry).2.arena.map (fun nd => nd.block_id)).count b := by
          omega
        exact List.count_pos_iff.mp this
      · intro h
        exact List.count_eq_one_of_mem hnd ((hmem_iff b).mpr h)
    · constructor
      · intro h hc
        have := List.count_eq_one_of_mem hnd ((hmem_iff b).mpr hc)
        omega
      · intro h
        rw [List.count_eq_zero]
        intro hc
        exact h ((hmem_iff b).mp hc)

theorem claim_C8_witness :
    (0 < c8Bl.blocks.length ∧
      ∀ i, i < c8Bl.blocks.length → ∀ s ∈ c8Bl.succOf i, s < c8Bl.blocks.length) ∧
    ((to_statements c8Bl 0).2.arena.map (fun nd => nd.block_id)).Nodup ∧
    ((to_statements c8Bl 0).2.arena.map (fun nd => nd.block_id)).count 1 = 1 :=
  ⟨⟨by decide, by decide⟩,
    (claim_C8 c8Bl 0 (by decide) (by decide)).2.2.1,
    ((claim_C8 c8Bl 0 (by decide) (by decide)).2.2.2 1).1.mpr
      (Reach.tail (Reach.refl 0) (by decide))⟩

/-- C1, counterexample to the claim as stated: in a two-block cycle the
CFG back-edge 1 → 0 is recorded as a `succ` edge of statement node 1
(and 0 → 1 as a `succ` edge of node 0), so the owning `succ` edges of
the statement graph contain a cycle and do not form a DAG. -/
theorem claim_C1_counterexample :
    0 ∈ c1Bl.succOf 1 ∧ 1 ∈ c1Bl.succOf 0 ∧
    (stmtGetD (to_statements c1Bl 0).2.arena 0).block_id = 0 ∧
    (stmtGetD (to_statements c1Bl 0).2.arena 1).block_id = 1 ∧
    1 ∈ (stmtGetD (to_statements c1Bl 0).2.arena 0).succ ∧
    0 ∈ (stmtGetD (to_statements c1Bl 0).2.arena 1).succ := by
  decide

/-- C1, amended: `to_statements_internal` calls `add_successor` also
when the successor block is already in `block2node`, so every statement
node's `succ` list mirrors the full CFG successor list of its block —
back-edges included.  The `succ` graph of the arena is therefore the
reachable CFG itself (cyclic whenever the CFG is), not a DAG with
back-edges demoted to `pred`. -/
theorem claim_C1 (bl : BlockList) (entry : Nat)
    (hentry : entry < bl.blocks.length)
    (hcl : ∀ i, i < bl.blocks.length → ∀ s ∈ bl.succOf i, s < bl.blocks.length) :
    ∀ j, j < (to_statements bl entry).2.arena.length →
      ((stmtGetD (to_statements bl entry).2.arena j).succ).map
          (fun m => (stmtGetD (to_statements bl entry).2.arena m).block_id) =
        bl.succOf ((stmtGetD (to_statements bl entry).2.arena j).block_id) := by
  obtain ⟨m1, m2, m3, m4, m5, m6, m7, m8, m9, m10⟩ :=
    to_statements_internal_spec bl bl.blocks.length hcl (bl.blocks.length + 1) entry
      ⟨[], []⟩ hentry rfl (buildInv_start _) (by rw [card_start]; omega)
  intro j hj
  have hts : to_statements bl entry =
      to_statements_internal bl (bl.blocks.length + 1) entry ⟨[], []⟩ := rfl
  rw [hts] at hj ⊢
  obtain ⟨hsf1, hsf2⟩ := m8 j (Nat.zero_le _) hj
  rw [hsf1, List.map_map]
  conv_rhs => rw [← List.map_id (bl.succOf
    ((stmtGetD (to_statements_internal bl (bl.blocks.length + 1) entry
      ⟨[], []⟩).2.arena j).block_id))]
  refine List.map_congr_left ?_
  intro s hs
  obtain ⟨v, hv⟩ := Option.isSome_iff_exists.mp (hsf2 s hs)
  have hf := buildInv_pair_facts bl.blocks.length _ m2 s v (lookupB2n_mem _ _ _ hv)
  show (stmtGetD (to_statements_internal bl (bl.blocks.length + 1) entry
    ⟨[], []⟩).2.arena ((lookupB2n (to_statements_internal bl (bl.blocks.length + 1)
      entry ⟨[], []⟩).2.b2n s).getD 0)).block_id = id s
  rw [hv]
  exact hf.2

/-- C1, witness: the amended theorem evaluated on the two-block cycle. -/
theorem claim_C1_witness :
    (0 < c1Bl.blocks.length ∧
      ∀ i, i < c1Bl.blocks.length → ∀ s ∈ c1Bl.succOf i, s < c1Bl.blocks.length) ∧
    ((stmtGetD (to_statements c1Bl 0).2.arena 1).succ).map
        (fun m => (stmtGetD (to_statements c1Bl 0).2.arena m).block_id) =
      c1Bl.succOf ((stmtGetD (to_statements c1Bl 0).2.arena 1).block_id) :=
  ⟨⟨by decide, by decide⟩, claim_C1 c1Bl 0 (by decide) (by decide) 1 (by decide)⟩

theorem dfsSeq_vis_reach (univ : Finset Nat) (adj : Nat → List Nat)
    (visit : Nat → Finset Nat → σ → DfsRes σ)
    (hv : ∀ x vis s, ∀ a ∈ (visit x vis s).vis, a ∈ vis ∨ Reach adj x a) :
    ∀ (l : List Nat) (vis : Finset Nat) (s : σ),
      ∀ a ∈ (dfsSeq univ visit l vis s).vis, a ∈ vis ∨ ∃ y ∈ l, Reach adj y a := by
  intro l
  induction l with
  | nil =>
    intro vis s a ha
    exact Or.inl ha
  | cons x xs ih =>
    intro vis s a ha
    by_cases hxv : x ∈ vis
    · rw [show dfsSeq univ visit (x :: xs) vis s = dfsSeq univ visit xs vis s from by
        simp [dfsSeq, hxv]] at ha
      rcases ih vis s a ha with h | ⟨y, hy, hr⟩
      · exact Or.inl h
      · exact Or.inr ⟨y, List.mem_cons_of_mem x hy, hr⟩
    · by_cases hxu : x ∈ univ
      · cases hok : (visit x vis s).ok
        · rw [show dfsSeq univ visit (x :: xs) vis s = visit x vis s from by
            simp [dfsSeq, hxv, hxu, hok]] at ha
          rcases hv x vis s a ha with h | h
          · exact Or.inl h
          · exact Or.inr ⟨x, List.mem_cons_self x xs, h⟩
        · rw [show dfsSeq univ visit (x :: xs) vis s =
              dfsSeq univ visit xs (visit x vis s).vis (visit x vis s).st from by
            simp [dfsSeq, hxv, hxu, hok]] at ha
          rcases ih (visit x vis s).vis (visit x vis s).st a ha with h | ⟨y, hy, hr⟩
          · rcases hv x vis s a h with h1 | h1
            · exact Or.inl h1
            · exact Or.inr ⟨x, List.mem_cons_self x xs, h1⟩
          · exact Or.inr ⟨y, List.mem_cons_of_mem x hy, hr⟩
      · rw [show dfsSeq univ visit (x :: xs) vis s = dfsSeq univ visit xs vis s from by
          simp [dfsSeq, hxv, hxu]] at ha
        rcases ih vis s a ha with h | ⟨y, hy, hr⟩
        · exact Or.inl h
        · exact Or.inr ⟨y, List.mem_cons_of_mem x hy, hr⟩

theorem dfsVisit_vis_reach (univ : Finset Nat) (adj : Nat → List Nat)
    (f : σ → Nat → σ × Bool) :
    ∀ (fuel x : Nat) (vis : Finset Nat) (s : σ),
      ∀ a ∈ (dfsVisit univ adj f fuel x vis s).vis, a ∈ vis ∨ Reach adj x a := by
  intro fuel
  induction fuel with
  | zero =>
    intro x vis s a ha
    exact Or.inl ha
  | succ fuel ih =>
    intro x vis s a ha
    cases hfc : (f s x).2
    · rw [show dfsVisit univ adj f (fuel+1) x vis s = ⟨insert x vis, (f s x).1, false⟩ from by
        simp [dfsVisit, hfc]] at ha
      rcases Finset.mem_insert.mp ha with h | h
      · exact Or.inr (by rw [h]; exact Reach.refl x)
      · exact Or.inl h
    · rw [show dfsVisit univ adj f (fuel+1) x vis s =
          dfsSeq univ (dfsVisit univ adj f fuel) (adj x) (insert x vis) (f s x).1 from by
        simp [dfsVisit, hfc]] at ha
      rcases dfsSeq_vis_reach univ adj (dfsVisit univ adj f fuel)
          (fun x' vis' s' a' ha' => ih x' vis' s' a' ha')
          (adj x) (insert x vis) (f s x).1 a ha with h | ⟨y, hy, hr⟩
      · rcases Finset.mem_insert.mp h with h1 | h1
        · exact Or.inr (by rw [h1]; exact Reach.refl x)
        · exact Or.inl h1
      · exact Or.inr (Reach.head adj hy hr)

theorem searchStep_mono (ar : List StmtNode) (hid tid : Nat)
    (s : Option Nat × Option Nat) (n : Nat) :
    (s.1.isSome = true → (searchVisitorF ar hid tid s n).1.1.isSome = true) ∧
    (s.2.isSome = true → (searchVisitorF ar hid tid s n).1.2.isSome = true) := by
  constructor <;>
    · intro hs
      simp only [searchVisitorF]
      split_ifs <;> simp_all

theorem chainSt_search_mono (ar : List StmtNode) (hid tid : Nat) :
    ∀ (Δ : List Nat) (s : Option Nat × Option Nat),
      (s.1.isSome = true →
        (chainSt (searchVisitorF ar hid tid) s Δ).1.isSome = true) ∧
      (s.2.isSome = true →
        (chainSt (searchVisitorF ar hid tid) s Δ).2.isSome = true) := by
  intro Δ
  induction Δ with
  | nil => intro s; exact ⟨id, id⟩
  | cons a Δ ih =>
    intro s
    rw [chainSt_cons]
    constructor
    · intro h1
      exact (ih _).1 ((searchStep_mono ar hid tid s a).1 h1)
    · intro h2
      exact (ih _).2 ((searchStep_mono ar hid tid s a).2 h2)

theorem chainSt_search_found_head (ar : List StmtNode) (hid tid : Nat) :
    ∀ (Δ : List Nat) (s : Option Nat × Option Nat) (nd : Nat), nd ∈ Δ →
      (stmtGetD ar nd).type = StmtType.Block → (stmtGetD ar nd).block_id = hid →
      (chainSt (searchVisitorF ar hid tid) s Δ).1.isSome = true := by
  intro Δ
  induction Δ with
  | nil =>
    intro s nd h
    exact absurd h (List.not_mem_nil nd)
  | cons a Δ ih =>
    intro s nd hmem hb hh
    rw [chainSt_cons]
    rcases List.mem_cons.mp hmem with h | h
    · subst h
      refine (chainSt_search_mono ar hid tid Δ _).1 ?_
      simp [searchVisitorF, hb, hh]
    · exact ih _ nd h hb hh

theorem chainSt_search_found_tail (ar : List StmtNode) (hid tid : Nat) :
    ∀ (Δ : List Nat) (s : Option Nat × Option Nat) (nd : Nat), nd ∈ Δ →
      (stmtGetD ar nd).type = StmtType.Block → (stmtGetD ar nd).block_id = tid →
      (chainSt (searchVisitorF ar hid tid) s Δ).2.isSome = true := by
  intro Δ
  induction Δ with
  | nil =>
    intro s nd h
    exact absurd h (List.not_mem_nil nd)
  | cons a Δ ih =>
    intro s nd hmem hb ht
    rw [chainSt_cons]
    rcases List.mem_cons.mp hmem with h | h
    · subst h
      refine (chainSt_search_mono ar hid tid Δ _).2 ?_
      simp [searchVisitorF, hb, ht]
    · exact ih _ nd h hb ht

theorem chainSt_search_sound (ar : List StmtNode) (hid tid : Nat) :
    ∀ (Δ : List Nat) (s : Option Nat × Option Nat) (v : Nat),
      ((chainSt (searchVisitorF ar hid tid) s Δ).1 = some v →
        s.1 = some v ∨ (v ∈ Δ ∧ (stmtGetD ar v).type = StmtType.Block ∧
          (stmtGetD ar v).block_id = hid)) ∧
      ((chainSt (searchVisitorF ar hid tid) s Δ).2 = some v →
        s.2 = some v ∨ (v ∈ Δ ∧ (stmtGetD ar v).type = StmtType.Block ∧
          (stmtGetD ar v).block_id = tid)) := by
  intro Δ
  induction Δ with
  | nil => intro s v; exact ⟨Or.inl, Or.inl⟩
  | cons a Δ ih =>
    intro s v
    rw [chainSt_cons]
    constructor
    · intro h
      rcases (ih _ v).1 h with h1 | h1
      · by_cases hb : (stmtGetD ar a).type = StmtType.Block
        · by_cases hh : (stmtGetD ar a).block_id = hid
          · simp only [searchVisitorF, if_pos hb, if_pos hh] at h1
            injection h1 with h2
            subst h2
            exact Or.inr ⟨List.mem_cons_self a Δ, hb, hh⟩
          · simp only [searchVisitorF, if_pos hb, if_neg hh] at h1
            exact Or.inl h1
        · simp only [searchVisitorF, if_neg hb] at h1
          exact Or.inl h1
      · exact Or.inr ⟨List.mem_cons_of_mem a h1.1, h1.2⟩
    · intro h
      rcases (ih _ v).2 h with h1 | h1
      · by_cases hb : (stmtGetD ar a).type = StmtType.Block
        · by_cases ht : (stmtGetD ar a).block_id = tid
          · simp only [searchVisitorF, if_pos hb, if_pos ht] at h1
            injection h1 with h2
            subst h2
            exact Or.inr ⟨List.mem_cons_self a Δ, hb, ht⟩
          · simp only [searchVisitorF, if_pos hb, if_neg ht] at h1
            exact Or.inl h1
        · simp only [searchVisitorF, if_neg hb] at h1
          exact Or.inl h1
      · exact Or.inr ⟨List.mem_cons_of_mem a h1.1, h1.2⟩

theorem chainStop_search_some (ar : List StmtNode) (hid tid : Nat) :
    ∀ (Δ : List Nat) (s : Option Nat × Option Nat),
      ChainStop (searchVisitorF ar hid tid) s Δ →
      (chainSt (searchVisitorF ar hid tid) s Δ).1.isSome = true ∧
      (chainSt (searchVisitorF ar hid tid) s Δ).2.isSome = true := by
  intro Δ
  induction Δ with
  | nil =>
    intro s h
    exact absurd h (by simp [ChainStop])
  | cons a Δ ih =>
    intro s h
    rw [chainSt_cons]
    rcases h with ⟨hstop, hnil⟩ | ⟨hcont, hrest⟩
    · subst hnil
      rw [chainSt_nil]
      by_cases hb : (stmtGetD ar a).type = StmtType.Block
      · by_cases hh : (stmtGetD ar a).block_id = hid <;>
          by_cases ht : (stmtGetD ar a).block_id = tid <;>
            simp_all [searchVisitorF, hb]
      · simp [searchVisitorF, hb] at hstop
    · exact ih _ hrest

theorem dowhileSearch_spec (ar : List StmtNode) (entry hid tid : Nat)
    (hentry : entry < ar.length)
    (hcl : ∀ j, j < ar.length → ∀ s ∈ stmtAdj ar j, s < ar.length) :
    (∀ v, (dowhileSearch ar entry hid tid).1 = some v →
      Reach (stmtAdj ar) entry v ∧ v < ar.length ∧
      (stmtGetD ar v).type = StmtType.Block ∧ (stmtGetD ar v).block_id = hid) ∧
    (∀ v, (dowhileSearch ar entry hid tid).2 = some v →
      Reach (stmtAdj ar) entry v ∧ v < ar.length ∧
      (stmtGetD ar v).type = StmtType.Block ∧ (stmtGetD ar v).block_id = tid) ∧
    ((dowhileSearch ar entry hid tid).1 = none →
      ∀ nd, Reach (stmtAdj ar) entry nd →
        ¬((stmtGetD ar nd).type = StmtType.Block ∧
          (stmtGetD ar nd).block_id = hid)) ∧
    ((dowhileSearch ar entry hid tid).2 = none →
      ∀ nd, Reach (stmtAdj ar) entry nd →
        ¬((stmtGetD ar nd).type = StmtType.Block ∧
          (stmtGetD ar nd).block_id = tid)) := by
  have hentryU : entry ∈ stmtUniv ar := Finset.mem_range.mpr hentry
  obtain ⟨Δ, hout, hx, hstop⟩ :=
    dfsVisit_out (stmtUniv ar) (stmtAdj ar) (searchVisitorF ar hid tid)
      ((stmtUniv ar).card + 1) entry ∅ (none, none) hentryU
      (Finset.not_mem_empty entry)
  have hres : dowhileSearch ar entry hid tid =
      chainSt (searchVisitorF ar hid tid) (none, none) Δ := hout.hst
  have hld : ∀ v, v ∈ Δ → v < ar.length := fun v hv =>
    Finset.mem_range.mp (hout.huniv v hv)
  have hvisΔ : (dfsVisit (stmtUniv ar) (stmtAdj ar) (searchVisitorF ar hid tid)
      ((stmtUniv ar).card + 1) entry ∅ (none, none)).vis = Δ.toFinset := by
    rw [hout.hvis, Finset.empty_union]
  have hreach_of_mem : ∀ v, v ∈ Δ → Reach (stmtAdj ar) entry v := by
    intro v hv
    have hvv : v ∈ (dfsVisit (stmtUniv ar) (stmtAdj ar)
        (searchVisitorF ar hid tid) ((stmtUniv ar).card + 1) entry ∅ (none, none)).vis := by
      rw [hvisΔ]
      exact List.mem_toFinset.mpr hv
    rcases dfsVisit_vis_reach (stmtUniv ar) (stmtAdj ar) (searchVisitorF ar hid tid)
        ((stmtUniv ar).card + 1) entry ∅ (none, none) v hvv with h | h
    · exact absurd h (Finset.not_mem_empty v)
    · exact h
  have hsound1 : ∀ v, (dowhileSearch ar entry hid tid).1 = some v →
      Reach (stmtAdj ar) entry v ∧ v < ar.length ∧
      (stmtGetD ar v).type = StmtType.Block ∧ (stmtGetD ar v).block_id = hid := by
    intro v hv
    rw [hres] at hv
    rcases (chainSt_search_sound ar hid tid Δ (none, none) v).1 hv with h | h
    · cases h
    · exact ⟨hreach_of_mem v h.1, hld v h.1, h.2⟩
  have hsound2 : ∀ v, (dowhileSearch ar entry hid tid).2 = some v →
      Reach (stmtAdj ar) entry v ∧ v < ar.length ∧
      (stmtGetD ar v).type = StmtType.Block ∧ (stmtGetD ar v).block_id = tid := by
    intro v hv
    rw [hres] at hv
    rcases (chainSt_search_sound ar hid tid Δ (none, none) v).2 hv with h | h
    · cases h
    · exact ⟨hreach_of_mem v h.1, hld v h.1, h.2⟩
  have hok_of_none : ((dowhileSearch ar entry hid tid).1 = none ∨
      (dowhileSearch ar entry hid tid).2 = none) →
      (dfsVisit (stmtUniv ar) (stmtAdj ar) (searchVisitorF ar hid tid)
        ((stmtUniv ar).card + 1) entry ∅ (none, none)).ok = true := by
    intro hn
    cases hok : (depth_first (stmtUniv ar) (stmtAdj ar) (searchVisitorF ar hid tid)
        entry ((none, none) : Option Nat × Option Nat)).ok
    · exfalso
      have hcs := chainStop_search_some ar hid tid Δ (none, none)
        (hstop (by rw [Finset.sdiff_empty]; omega) hok)
      rcases hn with hn | hn <;> rw [hres] at hn <;> rw [hn] at hcs
      · exact absurd hcs.1 (by simp)
      · exact absurd hcs.2 (by simp)
    · exact hok
  have hreach_vis : (dfsVisit (stmtUniv ar) (stmtAdj ar)
      (searchVisitorF ar hid tid) ((stmtUniv ar).card + 1) entry ∅ (none, none)).ok = true →
      ∀ nd, Reach (stmtAdj ar) entry nd → nd ∈ Δ := by
    intro hok nd hr
    induction hr with
    | refl =>
      have := hx hok
      rw [hvisΔ] at this
      exact List.mem_toFinset.mp this
    | tail hr hm iha =>
      have hbin := iha
      have hblt : _ < ar.length := hld _ hbin
      have hcu : _ ∈ stmtUniv ar := Finset.mem_range.mpr (hcl _ hblt _ hm)
      have := hout.hclos hok _ hbin _ hm hcu
      rw [hvisΔ] at this
      exact List.mem_toFinset.mp this
  refine ⟨hsound1, hsound2, ?_, ?_⟩
  · intro hnone nd hr hmatch
    have hnd : nd ∈ Δ := hreach_vis (hok_of_none (Or.inl hnone)) nd hr
    have := chainSt_search_found_head ar hid tid Δ (none, none) nd hnd
      hmatch.1 hmatch.2
    rw [← hres, hnone] at this
    cases this
  · intro hnone nd hr hmatch
    have hnd : nd ∈ Δ := hreach_vis (hok_of_none (Or.inr hnone)) nd hr
    have := chainSt_search_found_tail ar hid tid Δ (none, none) nd hnd
      hmatch.1 hmatch.2
    rw [← hres, hnone] at this
    cases this

theorem structure_dowhile_step_eq (e : Nat) (ar : List StmtNode) (loop : Loop) :
    structure_dowhile_step (e, ar) loop =
      match dowhileSearch ar e loop.head loop.tail with
      | (some h, some t) =>
        match StatementWhile.setup (ar ++ [mkStmtWhile]) ar.length h t with
        | some ar2 => some (if e = h then ar.length else e, ar2)
        | none => none
      | _ => some (e, ar) := rfl

/-- C3. `structure_dowhile` folds the loop list in order (each step
feeds the next loop the entry and graph the previous step produced);
within a step it searches the graph by forward depth-first for the
block statements carrying `loop.head` and `loop.tail`: when either has
no reachable block statement the step returns the entry and graph
unchanged, and when the search finds both (necessarily reachable block
statements with the right ids) a successful step returns the new while
node as entry exactly when the found head was the entry. -/
theorem claim_C3 (entry : Nat) (ar : List StmtNode) (loop : Loop) (ls : List Loop)
    (hentry : entry < ar.length)
    (hcl : ∀ j, j < ar.length → ∀ s ∈ stmtAdj ar j, s < ar.length) :
    structure_dowhile entry ar (loop :: ls) =
      (structure_dowhile_step (entry, ar) loop).bind
        (fun st2 => structure_dowhile st2.1 st2.2 ls) ∧
    (((∀ nd, Reach (stmtAdj ar) entry nd →
        ¬((stmtGetD ar nd).type = StmtType.Block ∧
          (stmtGetD ar nd).block_id = loop.head)) ∨
      (∀ nd, Reach (stmtAdj ar) entry nd →
        ¬((stmtGetD ar nd).type = StmtType.Block ∧
          (stmtGetD ar nd).block_id = loop.tail))) →
      structure_dowhile_step (entry, ar) loop = some (entry, ar)) ∧
    (∀ h t, dowhileSearch ar entry loop.head loop.tail = (some h, some t) →
      (Reach (stmtAdj ar) entry h ∧ h < ar.length ∧
        (stmtGetD ar h).type = StmtType.Block ∧
        (stmtGetD ar h).block_id = loop.head) ∧
      (Reach (stmtAdj ar) entry t ∧ t < ar.length ∧
        (stmtGetD ar t).type = StmtType.Block ∧
        (stmtGetD ar t).block_id = loop.tail) ∧
      ∀ e2 ar2, structure_dowhile_step (entry, ar) loop = some (e2, ar2) →
        e2 = if entry = h then ar.length else entry) := by
  obtain ⟨hs1, hs2, hn1, hn2⟩ :=
    dowhileSearch_spec ar entry loop.head loop.tail hentry hcl
  refine ⟨?_, ?_, ?_⟩
  · cases hstep : structure_dowhile_step (entry, ar) loop with
    | none => simp [structure_dowhile, hstep]
    | some st2 => simp [structure_dowhile, hstep]
  · intro habs
    rcases hq : dowhileSearch ar entry loop.head loop.tail with ⟨oh, ot⟩
    have hnone : oh = none ∨ ot = none := by
      rcases habs with habs | habs
      · left
        cases hoh : oh with
        | none => rfl
        | some v =>
          obtain ⟨hr, _, hb, hi⟩ := hs1 v (by rw [hq, hoh])
          exact absurd ⟨hb, hi⟩ (habs v hr)
      · right
        cases hot : ot with
        | none => rfl
        | some v =>
          obtain ⟨hr, _, hb, hi⟩ := hs2 v (by rw [hq, hot])
          exact absurd ⟨hb, hi⟩ (habs v hr)
    rw [structure_dowhile_step_eq, hq]
    rcases hnone with hn | hn
    · subst hn
      cases ot <;> rfl
    · subst hn
      cases oh <;> rfl
  · intro h t hq
    refine ⟨hs1 h (by rw [hq]), hs2 t (by rw [hq]), ?_⟩
    intro e2 ar2 hstep
    rw [structure_dowhile_step_eq, hq] at hstep
    dsimp only at hstep
    cases hsu : StatementWhile.setup (ar ++ [mkStmtWhile]) ar.length h t with
    | none =>
      rw [hsu] at hstep
      cases hstep
    | some ar3 =>
      rw [hsu] at hstep
      injection hstep with hpair
      injection hpair with h1 h2
      exact h1.symm

/-- C3, witness: the fold-order equation evaluated on a concrete
two-node statement graph and a single loop. -/
theorem claim_C3_witness :
    (0 < c3Arena.length ∧
      ∀ j, j < c3Arena.length → ∀ s ∈ stmtAdj c3Arena j, s < c3Arena.length) ∧
    structure_dowhile 0 c3Arena (⟨1, 0⟩ :: []) =
      (structure_dowhile_step (0, c3Arena) ⟨1, 0⟩).bind
        (fun st2 => structure_dowhile st2.1 st2.2 []) :=
  ⟨⟨by decide, by decide⟩, (claim_C3 0 c3Arena ⟨1, 0⟩ [] (by decide) (by decide)).1⟩
